import Mathlib

/-!
Verification of the agent-orchestration core of the `troy` conversational
agent: the conversation-log codec, the replay message projector, the trusted
and untrusted chat loops, and the SQLite-backed history store.

JavaScript strings are modelled by Lean `String` (a packed `List Char`);
`split`, `join`, `startsWith`, `slice` are modelled by explicit recursive
functions on the character list.  Timestamps (`Date.now()` differences) are
modelled as the constant `0`: no claim depends on wall-clock durations.
The chat transport is modelled as a finite script of responses consumed in
call order, and tool executors as functions into `Except` (a thrown error
carries its message string).
-/

namespace Troy

/-! ### Characters and decimal numerals

`isJsSpace` models the JavaScript `\s` character class (used via `\S` in the
log-header regex) for the code points that can realistically occur here.
`digitsAux`/`natToString` model JavaScript number-to-string conversion for
the non-negative integers that appear in the log (`${n}` templates), and
`charsToNat` models `Number(...)` on a digit string.
-/

def isJsSpace (c : Char) : Bool :=
  c = ' ' || c = '\t' || c = '\n' || c = '\r' ||
  c.val = 11 || c.val = 12 || c.val = 0xa0 || c.val = 0x2028 || c.val = 0x2029 || c.val = 0xfeff

def digitChar10 (n : Nat) : Char := Char.ofNat (48 + n)

def digitsAux : Nat → Nat → List Char
  | 0, _ => []
  | fuel + 1, n =>
    if n < 10 then [digitChar10 n]
    else digitsAux fuel (n / 10) ++ [digitChar10 (n % 10)]

def natToString (n : Nat) : String := String.mk (digitsAux (n + 1) n)

def charsToNat (cs : List Char) : Nat :=
  cs.foldl (fun acc c => acc * 10 + (c.toNat - 48)) 0

/-! ### Lines

`splitNl` models JavaScript `s.split("\n")` and `joinNl` models
`lines.join("\n")`, at the character-list level. -/

def splitNl : List Char → List (List Char)
  | [] => [[]]
  | c :: cs =>
    if c = '\n' then [] :: splitNl cs
    else
      match splitNl cs with
      | [] => [[c]]
      | l :: ls => (c :: l) :: ls

def joinNl : List (List Char) → List Char
  | [] => []
  | [l] => l
  | l :: ls => l ++ '\n' :: joinNl ls

def jsSplitNl (s : String) : List String := (splitNl s.data).map String.mk

def jsJoinNl (ls : List String) : String := String.mk (joinNl (ls.map String.data))

def joinSep (sep : String) : List String → String
  | [] => ""
  | [x] => x
  | x :: xs => x ++ sep ++ joinSep sep xs

/-! ### The conversation-log data model (src/conversationlog.ts) -/

inductive ConversationEntry where
  | prompt (content : String)
  | response (content : String)
  | tool_input (name content : String)
  | tool_output (name content : String) (duration_ms : Nat)
deriving DecidableEq, Repr

/-- `indentBlock`: every line of `text` prefixed with two spaces. -/
def indentBlock (text : String) : String :=
  jsJoinNl ((jsSplitNl text).map (fun line => "  " ++ line))

def formatEntry : ConversationEntry → String
  | .prompt content => "Prompt:\n" ++ indentBlock content
  | .response content => "Response:\n" ++ indentBlock content
  | .tool_input name content => "Tool Input name=" ++ name ++ ":\n" ++ indentBlock content
  | .tool_output name content duration_ms =>
    "Tool Output name=" ++ name ++ " duration=" ++ natToString duration_ms ++ "ms:\n" ++
      indentBlock content

def formatConversationLog (entries : List ConversationEntry) : String :=
  joinSep "\n\n" (entries.map formatEntry) ++ "\n"

/-! ### The header regex

`parseConversationLog` matches each line against
`^(Prompt|Response|Tool Input|Tool Output)(?: name=(\S+?))?(?: duration=(\d+)ms)?:$`.
The functions below implement that pattern's backtracking semantics directly:
the alternation commits on its literal (no two alternatives share a viable
prefix), the optional ` name=` group is tried first when its literal is
present, the lazy `\S+?` tries the shortest name first (`nameSearch`), and
the optional duration group takes the maximal digit run (backtracking inside
`\d+` can never succeed here because the character after a shortened run is
again a digit, not `m`). -/

inductive HeaderKind where
  | promptH | responseH | toolInputH | toolOutputH
deriving DecidableEq, Repr

def dropLit : List Char → List Char → Option (List Char)
  | [], rest => some rest
  | _ :: _, [] => none
  | p :: ps, c :: cs => if c = p then dropLit ps cs else none

def headKind (l : List Char) : Option (HeaderKind × List Char) :=
  match dropLit "Prompt".data l with
  | some r => some (.promptH, r)
  | none =>
    match dropLit "Response".data l with
    | some r => some (.responseH, r)
    | none =>
      match dropLit "Tool Input".data l with
      | some r => some (.toolInputH, r)
      | none =>
        match dropLit "Tool Output".data l with
        | some r => some (.toolOutputH, r)
        | none => none

/-- Matches `(?: duration=(\d+)ms)?:$` against the rest of a line. -/
def matchTailEnd (r : List Char) : Option (Option Nat) :=
  if r = [':'] then some none
  else
    match dropLit " duration=".data r with
    | none => none
    | some s =>
      let ds := s.takeWhile Char.isDigit
      let rest := s.dropWhile Char.isDigit
      if ds = [] then none
      else if rest = "ms:".data then some (some (charsToNat ds)) else none

/-- The lazy `\S+?` capture: shortest non-empty non-space run whose
remainder matches the tail of the pattern. -/
def nameSearch (acc : List Char) : List Char → Option (List Char × Option Nat)
  | [] => none
  | c :: rest =>
    if isJsSpace c then none
    else
      match matchTailEnd rest with
      | some d => some (acc ++ [c], d)
      | none => nameSearch (acc ++ [c]) rest

def parseHeader (l : List Char) : Option (HeaderKind × String × Option Nat) :=
  match headKind l with
  | none => none
  | some (k, r) =>
    match dropLit " name=".data r with
    | some s =>
      match nameSearch [] s with
      | some (n, d) => some (k, String.mk n, d)
      | none => none
    | none =>
      match matchTailEnd r with
      | some d => some (k, "", d)
      | none => none

/-! ### The parser loop -/

def isIndentedL (l : List Char) : Bool :=
  match l with
  | ' ' :: ' ' :: _ => true
  | _ => false

/-- The inner content-collection loop of `parseConversationLog`: consume
indented lines (stripping the two-space indent) and blank lines whose next
line is indented; stop at anything else, leaving it unconsumed. -/
def takeContent : List (List Char) → (List (List Char) × List (List Char))
  | [] => ([], [])
  | l :: rest =>
    if isIndentedL l then
      let p := takeContent rest
      (l.drop 2 :: p.1, p.2)
    else if l = [] then
      match rest with
      | next :: _ =>
        if isIndentedL next then
          let p := takeContent rest
          ([] :: p.1, p.2)
        else ([], l :: rest)
      | [] => ([], l :: rest)
    else ([], l :: rest)

theorem takeContent_rest_length (ls : List (List Char)) :
    (takeContent ls).2.length ≤ ls.length := by
  induction ls with
  | nil => simp [takeContent]
  | cons l rest ih =>
    simp only [takeContent]
    split
    · simpa using Nat.le_succ_of_le ih
    · split
      · split
        · split
          · simpa using Nat.le_succ_of_le ih
          · simp
        · simp
      · simp

def mkParsedEntry (k : HeaderKind) (name : String) (dur : Option Nat)
    (content : String) : ConversationEntry :=
  match k with
  | .promptH => .prompt content
  | .responseH => .response content
  | .toolInputH => .tool_input name content
  | .toolOutputH => .tool_output name content (dur.getD 0)

def parseLines : List (List Char) → List ConversationEntry
  | [] => []
  | l :: rest =>
    match parseHeader l with
    | none => parseLines rest
    | some (k, name, dur) =>
      let p := takeContent rest
      mkParsedEntry k name dur (String.mk (joinNl p.1)) :: parseLines p.2
termination_by ls => ls.length
decreasing_by
  all_goals simp only [List.length_cons]
  · omega
  · exact Nat.lt_succ_of_le (takeContent_rest_length _)

def parseConversationLog (text : String) : List ConversationEntry :=
  parseLines (splitNl text.data)

/-! ### Round-trip: line-level lemmas -/

theorem splitNl_ne_nil (cs : List Char) : splitNl cs ≠ [] := by
  induction cs with
  | nil => simp [splitNl]
  | cons c cs ih =>
    simp only [splitNl]
    split
    · simp
    · match h : splitNl cs with
      | [] => simp
      | l :: ls => simp

theorem splitNl_append_nl (a b : List Char) :
    splitNl (a ++ '\n' :: b) = splitNl a ++ splitNl b := by
  induction a with
  | nil => simp [splitNl]
  | cons c a ih =>
    simp only [List.cons_append, splitNl]
    split
    · simp [splitNl, *]
    · simp only [List.append_eq]
      rw [ih]
      match h : splitNl a with
      | [] => exact absurd h (splitNl_ne_nil a)
      | l :: ls => simp [splitNl, h]

theorem no_nl_of_mem_splitNl (cs : List Char) :
    ∀ l ∈ splitNl cs, '\n' ∉ l := by
  induction cs with
  | nil => simp [splitNl]
  | cons c cs ih =>
    simp only [splitNl]
    split
    · rename_i hc
      intro l hl
      rcases List.mem_cons.mp hl with h | h
      · simp [h]
      · exact ih l h
    · rename_i hc
      match h : splitNl cs with
      | [] => exact absurd h (splitNl_ne_nil cs)
      | l :: ls =>
        intro x hx
        rcases List.mem_cons.mp hx with hx | hx
        · subst hx
          intro hmem
          rcases List.mem_cons.mp hmem with h1 | h1
          · exact hc h1.symm
          · exact ih l (h ▸ List.mem_cons_self l ls) h1
        · exact ih x (h ▸ List.mem_cons_of_mem l hx)

theorem joinNl_splitNl (cs : List Char) : joinNl (splitNl cs) = cs := by
  induction cs with
  | nil => simp [splitNl, joinNl]
  | cons c cs ih =>
    simp only [splitNl]
    split
    · rename_i hc
      subst hc
      match h : splitNl cs with
      | [] => exact absurd h (splitNl_ne_nil cs)
      | l :: ls =>
        rw [h] at ih
        simpa [joinNl] using ih
    · match h : splitNl cs with
      | [] => exact absurd h (splitNl_ne_nil cs)
      | l :: ls =>
        rw [h] at ih
        cases ls with
        | nil => simpa [joinNl] using ih
        | cons l2 ls2 => simpa [joinNl] using ih

theorem splitNl_of_no_nl (cs : List Char) (h : '\n' ∉ cs) : splitNl cs = [cs] := by
  induction cs with
  | nil => simp [splitNl]
  | cons c cs ih =>
    simp only [List.mem_cons, not_or] at h
    simp only [splitNl]
    rw [if_neg (fun hc => h.1 hc.symm), ih h.2]

theorem splitNl_joinNl (ls : List (List Char)) (hne : ls ≠ [])
    (h : ∀ l ∈ ls, '\n' ∉ l) : splitNl (joinNl ls) = ls := by
  induction ls with
  | nil => exact absurd rfl hne
  | cons l ls ih =>
    cases ls with
    | nil => simpa [joinNl] using splitNl_of_no_nl l (h l (by simp))
    | cons l2 ls2 =>
      have hstep : joinNl (l :: l2 :: ls2) = l ++ '\n' :: joinNl (l2 :: ls2) := rfl
      rw [hstep, splitNl_append_nl, splitNl_of_no_nl l (h l (by simp)),
        ih (by simp) (fun x hx => h x (List.mem_cons_of_mem l hx))]
      simp

/-! ### Round-trip: decimal numeral lemmas -/

theorem digitChar10_isDigit (d : Nat) (h : d < 10) : (digitChar10 d).isDigit = true := by
  interval_cases d <;> decide

theorem digitChar10_toNat (d : Nat) (h : d < 10) : (digitChar10 d).toNat = 48 + d := by
  interval_cases d <;> decide

theorem digitChar10_not_space (d : Nat) (h : d < 10) : isJsSpace (digitChar10 d) = false := by
  interval_cases d <;> decide

theorem digitsAux_all_digits (fuel n : Nat) :
    ∀ c ∈ digitsAux fuel n, c.isDigit = true := by
  induction fuel generalizing n with
  | zero => simp [digitsAux]
  | succ fuel ih =>
    simp only [digitsAux]
    split
    · rename_i h
      simpa using digitChar10_isDigit n h
    · rename_i h
      intro c hc
      rcases List.mem_append.mp hc with h1 | h1
      · exact ih (n / 10) c h1
      · rcases List.mem_singleton.mp h1 with rfl
        exact digitChar10_isDigit (n % 10) (Nat.mod_lt n (by omega))

theorem digitsAux_ne_nil (fuel n : Nat) (h : n < fuel) : digitsAux fuel n ≠ [] := by
  match fuel with
  | fuel + 1 =>
    simp only [digitsAux]
    split
    · simp
    · simp

theorem foldl_digitsAux (fuel n acc : Nat) (h : n < fuel) :
    List.foldl (fun acc c => acc * 10 + (c.toNat - 48)) acc (digitsAux fuel n) =
      acc * 10 ^ (digitsAux fuel n).length + n := by
  induction fuel generalizing n acc with
  | zero => omega
  | succ fuel ih =>
    simp only [digitsAux]
    split
    · rename_i hn
      simp [List.foldl, digitChar10_toNat n hn]
    · rename_i hn
      push_neg at hn
      have hrec : n / 10 < fuel := by
        have h1 : n / 10 < n := Nat.div_lt_self (by omega) (by omega)
        omega
      rw [List.foldl_append, ih (n / 10) acc hrec]
      have hm : n % 10 < 10 := Nat.mod_lt n (by omega)
      simp only [List.foldl, List.length_append, List.length_singleton,
        digitChar10_toNat (n % 10) hm]
      have : 48 + n % 10 - 48 = n % 10 := by omega
      rw [this, pow_succ]
      have := Nat.div_add_mod n 10
      ring_nf
      omega

theorem charsToNat_digitsAux (n : Nat) : charsToNat (digitsAux (n + 1) n) = n := by
  have := foldl_digitsAux (n + 1) n 0 (by omega)
  simpa [charsToNat] using this

theorem digitsAux_no_nl (fuel n : Nat) : '\n' ∉ digitsAux fuel n := by
  intro h
  have := digitsAux_all_digits fuel n '\n' h
  simp [Char.isDigit] at this

/-! ### Round-trip: header lemmas -/

def validName (n : String) : Bool :=
  !n.data.isEmpty && n.data.all (fun c => !isJsSpace c)

/-- A log entry whose header the codec's line grammar can represent: tool
names must be non-empty and must contain no character of the `\s` class
(otherwise the `name=(\S+?)` capture cannot match the formatted header). -/
def wellFormedEntry : ConversationEntry → Bool
  | .prompt _ => true
  | .response _ => true
  | .tool_input name _ => validName name
  | .tool_output name _ _ => validName name

def entryContent : ConversationEntry → String
  | .prompt content => content
  | .response content => content
  | .tool_input _ content => content
  | .tool_output _ content _ => content

def entryKind : ConversationEntry → HeaderKind
  | .prompt _ => .promptH
  | .response _ => .responseH
  | .tool_input _ _ => .toolInputH
  | .tool_output _ _ _ => .toolOutputH

def entryName : ConversationEntry → String
  | .tool_input name _ => name
  | .tool_output name _ _ => name
  | _ => ""

def entryDur : ConversationEntry → Option Nat
  | .tool_output _ _ duration_ms => some duration_ms
  | _ => none

def entryHeaderLine : ConversationEntry → List Char
  | .prompt _ => "Prompt:".data
  | .response _ => "Response:".data
  | .tool_input name _ => "Tool Input name=".data ++ name.data ++ [':']
  | .tool_output name _ duration_ms =>
    "Tool Output name=".data ++ name.data ++ " duration=".data ++
      digitsAux (duration_ms + 1) duration_ms ++ "ms:".data

def entryContentLines (e : ConversationEntry) : List (List Char) :=
  (splitNl (entryContent e).data).map (fun l => ' ' :: ' ' :: l)

def entryLines (e : ConversationEntry) : List (List Char) :=
  entryHeaderLine e :: entryContentLines e

theorem dropLit_append (p r : List Char) : dropLit p (p ++ r) = some r := by
  induction p with
  | nil => simp [dropLit]
  | cons c p ih => simp [dropLit, ih]

theorem matchTailEnd_none_of_head (c : Char) (t : List Char)
    (h1 : c :: t ≠ [':']) (h2 : c ≠ ' ') : matchTailEnd (c :: t) = none := by
  simp only [matchTailEnd, if_neg h1]
  have : dropLit " duration=".data (c :: t) = none := by
    simp only [show " duration=".data = ' ' :: "duration=".data from rfl, dropLit, if_neg h2]
  rw [this]

theorem takeWhile_append_of_all (p : Char → Bool) (l r : List Char)
    (h : ∀ c ∈ l, p c = true) : (l ++ r).takeWhile p = l ++ r.takeWhile p := by
  induction l with
  | nil => simp
  | cons c l ih =>
    simp only [List.cons_append, List.takeWhile_cons_of_pos (h c (by simp))]
    rw [ih (fun x hx => h x (List.mem_cons_of_mem c hx))]

theorem dropWhile_append_of_all (p : Char → Bool) (l r : List Char)
    (h : ∀ c ∈ l, p c = true) : (l ++ r).dropWhile p = r.dropWhile p := by
  induction l with
  | nil => simp
  | cons c l ih =>
    simp only [List.cons_append, List.dropWhile_cons_of_pos (h c (by simp))]
    exact ih (fun x hx => h x (List.mem_cons_of_mem c hx))

theorem matchTailEnd_duration (d : Nat) :
    matchTailEnd (" duration=".data ++ digitsAux (d + 1) d ++ "ms:".data) =
      some (some d) := by
  have hne : " duration=".data ++ digitsAux (d + 1) d ++ "ms:".data ≠ [':'] := by
    simp [show " duration=".data = ' ' :: "duration=".data from rfl]
  simp only [matchTailEnd, if_neg hne, List.append_assoc,
    dropLit_append " duration=".data (digitsAux (d + 1) d ++ "ms:".data)]
  rw [takeWhile_append_of_all _ _ _ (digitsAux_all_digits (d + 1) d),
    dropWhile_append_of_all _ _ _ (digitsAux_all_digits (d + 1) d)]
  have hm : "ms:".data.takeWhile Char.isDigit = [] := by decide
  have hm2 : "ms:".data.dropWhile Char.isDigit = "ms:".data := by decide
  rw [hm, hm2]
  have hnil : digitsAux (d + 1) d ++ [] ≠ [] := by
    simpa using digitsAux_ne_nil (d + 1) d (by omega)
  rw [if_neg hnil, if_pos rfl]
  simp [charsToNat_digitsAux]

/-- On a name followed by the rest of a formatted header, the lazy search
stops exactly at the end of the name. `tail` is `":"` (tool input) or
`" duration=<digits>ms:"` (tool output). -/
theorem nameSearch_spec (tail : List Char) (dur : Option Nat)
    (htail : matchTailEnd tail = some dur) (htail0 : tail ≠ [])
    (n : List Char) (hn : n ≠ []) (hns : ∀ c ∈ n, isJsSpace c = false) :
    ∀ acc, nameSearch acc (n ++ tail) = some (acc ++ n, dur) := by
  induction n with
  | nil => exact absurd rfl hn
  | cons c n ih =>
    intro acc
    have hc : isJsSpace c = false := hns c (by simp)
    simp only [List.cons_append, List.append_eq, nameSearch, hc, Bool.false_eq_true, if_false]
    cases n with
    | nil =>
      simp only [List.nil_append, htail]
    | cons c2 n2 =>
      have hne : (c2 :: n2) ++ tail ≠ [':'] := by
        intro h
        have h2 : c2 = ':' ∧ n2 ++ tail = [] := by
          simpa using h
        rcases h2 with ⟨rfl, h3⟩
        exact htail0 (List.append_eq_nil.mp h3).2
      have hc2 : c2 ≠ ' ' := by
        have := hns c2 (by simp)
        intro hh
        rw [hh] at this
        simp [isJsSpace] at this
      have hnone : matchTailEnd ((c2 :: n2) ++ tail) = none := by
        simpa using matchTailEnd_none_of_head c2 (n2 ++ tail) hne hc2
      rw [show (c2 :: n2) ++ tail = c2 :: (n2 ++ tail) from rfl] at hnone
      simp only [List.cons_append]
      rw [hnone]
      have := ih (by simp) (fun x hx => hns x (List.mem_cons_of_mem c hx)) (acc ++ [c])
      simpa [List.cons_append] using this

theorem dropLit_ne_head (p : Char) (ps : List Char) (c : Char) (cs : List Char)
    (h : c ≠ p) : dropLit (p :: ps) (c :: cs) = none := by
  simp [dropLit, h]

theorem dropLit_common (p ps cs : List Char) :
    dropLit (p ++ ps) (p ++ cs) = dropLit ps cs := by
  induction p with
  | nil => simp
  | cons c p ih => simp [dropLit, ih]

theorem headKind_toolInput (x : List Char) :
    headKind ("Tool Input name=".data ++ x) = some (.toolInputH, " name=".data ++ x) := by
  have hP : dropLit "Prompt".data ("Tool Input name=".data ++ x) = none := by
    rw [show "Tool Input name=".data ++ x = 'T' :: ("ool Input name=".data ++ x) from rfl,
      show "Prompt".data = 'P' :: "rompt".data from rfl]
    exact dropLit_ne_head _ _ _ _ (by decide)
  have hR : dropLit "Response".data ("Tool Input name=".data ++ x) = none := by
    rw [show "Tool Input name=".data ++ x = 'T' :: ("ool Input name=".data ++ x) from rfl,
      show "Response".data = 'R' :: "esponse".data from rfl]
    exact dropLit_ne_head _ _ _ _ (by decide)
  have hTI : dropLit "Tool Input".data ("Tool Input name=".data ++ x) =
      some (" name=".data ++ x) := by
    rw [show "Tool Input name=".data ++ x = "Tool Input".data ++ (" name=".data ++ x) from rfl]
    exact dropLit_append _ _
  simp only [headKind, hP, hR, hTI]

theorem headKind_toolOutput (x : List Char) :
    headKind ("Tool Output name=".data ++ x) = some (.toolOutputH, " name=".data ++ x) := by
  have hP : dropLit "Prompt".data ("Tool Output name=".data ++ x) = none := by
    rw [show "Tool Output name=".data ++ x = 'T' :: ("ool Output name=".data ++ x) from rfl,
      show "Prompt".data = 'P' :: "rompt".data from rfl]
    exact dropLit_ne_head _ _ _ _ (by decide)
  have hR : dropLit "Response".data ("Tool Output name=".data ++ x) = none := by
    rw [show "Tool Output name=".data ++ x = 'T' :: ("ool Output name=".data ++ x) from rfl,
      show "Response".data = 'R' :: "esponse".data from rfl]
    exact dropLit_ne_head _ _ _ _ (by decide)
  have hTI : dropLit "Tool Input".data ("Tool Output name=".data ++ x) = none := by
    rw [show "Tool Output name=".data ++ x = "Tool ".data ++ ("Output name=".data ++ x) from rfl,
      show "Tool Input".data = "Tool ".data ++ "Input".data from rfl, dropLit_common,
      show "Output name=".data ++ x = 'O' :: ("utput name=".data ++ x) from rfl,
      show "Input".data = 'I' :: "nput".data from rfl]
    exact dropLit_ne_head _ _ _ _ (by decide)
  have hTO : dropLit "Tool Output".data ("Tool Output name=".data ++ x) =
      some (" name=".data ++ x) := by
    rw [show "Tool Output name=".data ++ x = "Tool Output".data ++ (" name=".data ++ x) from rfl]
    exact dropLit_append _ _
  simp only [headKind, hP, hR, hTI, hTO]

theorem validName_elim (name : String) (h : validName name = true) :
    name.data ≠ [] ∧ ∀ c ∈ name.data, isJsSpace c = false := by
  constructor
  · intro hnil
    simp [validName, hnil] at h
  · intro c hc
    simp only [validName, Bool.and_eq_true, List.all_eq_true] at h
    simpa using h.2 c hc

theorem parseHeader_entryHeaderLine (e : ConversationEntry) (h : wellFormedEntry e = true) :
    parseHeader (entryHeaderLine e) = some (entryKind e, entryName e, entryDur e) := by
  cases e with
  | prompt content =>
    simp only [entryHeaderLine, entryKind, entryName, entryDur]
    decide
  | response content =>
    simp only [entryHeaderLine, entryKind, entryName, entryDur]
    decide
  | tool_input name content =>
    obtain ⟨hne, hns⟩ := validName_elim name h
    simp only [entryHeaderLine, entryKind, entryName, entryDur, parseHeader, List.append_assoc,
      headKind_toolInput (name.data ++ [':']), dropLit_append]
    rw [nameSearch_spec [':'] none (by decide) (by decide) name.data hne hns []]
    simp
  | tool_output name content duration_ms =>
    obtain ⟨hne, hns⟩ := validName_elim name h
    simp only [entryHeaderLine, entryKind, entryName, entryDur, parseHeader, List.append_assoc,
      headKind_toolOutput
        (name.data ++ (" duration=".data ++ (digitsAux (duration_ms + 1) duration_ms ++ "ms:".data))),
      dropLit_append]
    rw [nameSearch_spec
      (" duration=".data ++ (digitsAux (duration_ms + 1) duration_ms ++ "ms:".data))
      (some duration_ms)
      (by simpa [List.append_assoc] using matchTailEnd_duration duration_ms)
      (by simp [show " duration=".data = ' ' :: "duration=".data from rfl])
      name.data hne hns []]
    simp

/-! ### Round-trip: block-level lemmas -/

theorem indentBlock_data (text : String) :
    (indentBlock text).data = joinNl ((splitNl text.data).map (fun l => ' ' :: ' ' :: l)) := by
  simp only [indentBlock, jsJoinNl, jsSplitNl, List.map_map]
  congr 1

theorem formatEntry_data (e : ConversationEntry) :
    (formatEntry e).data = entryHeaderLine e ++ '\n' :: joinNl (entryContentLines e) := by
  cases e with
  | prompt content =>
    simp [formatEntry, entryHeaderLine, entryContentLines, entryContent, indentBlock_data,
      show "Prompt:\n".data = "Prompt:".data ++ ['\n'] from rfl]
  | response content =>
    simp [formatEntry, entryHeaderLine, entryContentLines, entryContent, indentBlock_data,
      show "Response:\n".data = "Response:".data ++ ['\n'] from rfl]
  | tool_input name content =>
    simp [formatEntry, entryHeaderLine, entryContentLines, entryContent, indentBlock_data,
      show ":\n".data = [':', '\n'] from rfl]
  | tool_output name content duration_ms =>
    simp [formatEntry, entryHeaderLine, entryContentLines, entryContent, indentBlock_data,
      natToString, show "ms:\n".data = "ms:".data ++ ['\n'] from rfl,
      show "ms:".data = ['m', 's', ':'] from rfl]

theorem entryHeaderLine_no_nl (e : ConversationEntry) (h : wellFormedEntry e = true) :
    '\n' ∉ entryHeaderLine e := by
  cases e with
  | prompt content =>
    simp only [entryHeaderLine]
    decide
  | response content =>
    simp only [entryHeaderLine]
    decide
  | tool_input name content =>
    obtain ⟨-, hns⟩ := validName_elim name h
    simp only [entryHeaderLine, List.append_assoc, List.mem_append]
    rintro (hmem | hmem | hmem)
    · revert hmem
      decide
    · have := hns _ hmem
      simp [isJsSpace] at this
    · revert hmem
      decide
  | tool_output name content duration_ms =>
    obtain ⟨-, hns⟩ := validName_elim name h
    simp only [entryHeaderLine, List.append_assoc, List.mem_append]
    rintro (hmem | hmem | hmem | hmem | hmem)
    · revert hmem
      decide
    · have := hns _ hmem
      simp [isJsSpace] at this
    · revert hmem
      decide
    · exact digitsAux_no_nl _ _ hmem
    · revert hmem
      decide

theorem entryContentLines_no_nl (e : ConversationEntry) :
    ∀ l ∈ entryContentLines e, '\n' ∉ l := by
  intro l hl
  simp only [entryContentLines, List.mem_map] at hl
  obtain ⟨l0, hl0, rfl⟩ := hl
  have h0 := no_nl_of_mem_splitNl (entryContent e).data l0 hl0
  simp only [List.mem_cons, not_or]
  exact ⟨by decide, by decide, h0⟩

theorem splitNl_formatEntry (e : ConversationEntry) (h : wellFormedEntry e = true) :
    splitNl (formatEntry e).data = entryLines e := by
  rw [formatEntry_data, splitNl_append_nl, splitNl_of_no_nl _ (entryHeaderLine_no_nl e h),
    splitNl_joinNl _ (by simp [entryContentLines, splitNl_ne_nil]) (entryContentLines_no_nl e)]
  rfl

theorem splitNl_format_cons (e : ConversationEntry) (es : List ConversationEntry)
    (h : ∀ x ∈ e :: es, wellFormedEntry x = true) :
    splitNl (formatConversationLog (e :: es)).data =
      (e :: es).flatMap (fun x => entryLines x ++ [[]]) := by
  induction es generalizing e with
  | nil =>
    simp only [formatConversationLog, List.map_cons, List.map_nil, joinSep,
      String.data_append, show "\n".data = ['\n'] from rfl]
    rw [show (formatEntry e).data ++ ['\n'] = (formatEntry e).data ++ '\n' :: [] from rfl,
      splitNl_append_nl, splitNl_formatEntry e (h e (by simp))]
    simp [entryLines, splitNl]
  | cons e2 es2 ih =>
    have hsub : ∀ x ∈ e2 :: es2, wellFormedEntry x = true :=
      fun x hx => h x (List.mem_cons_of_mem e hx)
    have hstep : (formatConversationLog (e :: e2 :: es2)).data =
        (formatEntry e).data ++ '\n' :: ('\n' :: (formatConversationLog (e2 :: es2)).data) := by
      simp only [formatConversationLog, List.map_cons, joinSep, String.data_append,
        show "\n\n".data = ['\n', '\n'] from rfl, show "\n".data = ['\n'] from rfl]
      simp
    rw [hstep, splitNl_append_nl, splitNl_formatEntry e (h e (by simp)),
      show splitNl ('\n' :: (formatConversationLog (e2 :: es2)).data) =
        [] :: splitNl (formatConversationLog (e2 :: es2)).data from rfl,
      ih e2 hsub]
    simp [entryLines]

/-! ### Round-trip: parsing the formatted lines back -/

def headNotIndented : List (List Char) → Prop
  | [] => True
  | l :: _ => isIndentedL l = false

theorem isIndentedL_nil : isIndentedL [] = false := rfl

theorem isIndentedL_two_spaces (l : List Char) : isIndentedL (' ' :: ' ' :: l) = true := rfl

theorem takeContent_spec (cl : List (List Char)) (rest : List (List Char))
    (h : headNotIndented rest) :
    takeContent (cl.map (fun l => ' ' :: ' ' :: l) ++ [] :: rest) = (cl, [] :: rest) := by
  induction cl with
  | nil =>
    cases rest with
    | nil => rfl
    | cons r rs =>
      simp only [headNotIndented] at h
      simp [takeContent, isIndentedL_nil, h]
  | cons c cl ih =>
    simp [takeContent, isIndentedL_two_spaces, ih]

theorem mkParsedEntry_inv (e : ConversationEntry) :
    mkParsedEntry (entryKind e) (entryName e) (entryDur e) (entryContent e) = e := by
  cases e <;> rfl

theorem entryHeaderLine_not_indented (e : ConversationEntry) :
    isIndentedL (entryHeaderLine e) = false := by
  cases e <;> rfl

theorem parseLines_blocks (es : List ConversationEntry)
    (h : ∀ x ∈ es, wellFormedEntry x = true) :
    parseLines (es.flatMap (fun e => entryLines e ++ [[]])) = es := by
  induction es with
  | nil =>
    simp [parseLines]
  | cons e es ih =>
    have hhd : headNotIndented (es.flatMap (fun e => entryLines e ++ [[]])) := by
      cases es with
      | nil => trivial
      | cons e2 es2 =>
        simp only [List.flatMap_cons, entryLines, List.cons_append, headNotIndented]
        exact entryHeaderLine_not_indented e2
    have hflat : (e :: es).flatMap (fun e => entryLines e ++ [[]]) =
        entryHeaderLine e ::
          (entryContentLines e ++ [] :: es.flatMap (fun e => entryLines e ++ [[]])) := by
      simp [entryLines]
    rw [hflat]
    rw [parseLines]
    rw [parseHeader_entryHeaderLine e (h e (by simp))]
    simp only [entryContentLines]
    rw [takeContent_spec _ _ hhd]
    simp only [joinNl_splitNl]
    rw [show String.mk (entryContent e).data = entryContent e from rfl, mkParsedEntry_inv]
    rw [parseLines]
    rw [show parseHeader [] = none from rfl]
    rw [ih (fun x hx => h x (List.mem_cons_of_mem e hx))]

/-- C2 — Round-trip law of the log codec: for every well-formed sequence of
`ConversationEntry` values, `parseConversationLog (formatConversationLog entries)`
equals `entries`.  "Well-formed" is the condition the header grammar imposes:
tool names are non-empty and contain no whitespace-class character (contents
and durations are unrestricted).  Both functions are total by construction in
this embedding, which is the "format never fails / parse never throws" half of
the claim: parsing malformed text degrades to skipping unmatched lines. -/
theorem c2_log_codec_roundtrip (entries : List ConversationEntry)
    (h : ∀ e ∈ entries, wellFormedEntry e = true) :
    parseConversationLog (formatConversationLog entries) = entries := by
  cases entries with
  | nil =>
    have h0 : (formatConversationLog []).data = ['\n'] := rfl
    rw [parseConversationLog, h0,
      show splitNl ['\n'] = [[], []] from rfl, parseLines,
      show parseHeader [] = none from rfl, parseLines,
      show parseHeader [] = none from rfl, parseLines]
  | cons e es =>
    rw [parseConversationLog, splitNl_format_cons e es h, parseLines_blocks _ h]

theorem c2_log_codec_roundtrip_witness :
    parseConversationLog (formatConversationLog
      [.prompt "What is the weather?",
       .tool_input "get_weather" "\x7b\"location\": \"London\"\x7d",
       .tool_output "get_weather" "Partly cloudy\n\nwith sun" 150,
       .response "It is partly cloudy"]) =
      [.prompt "What is the weather?",
       .tool_input "get_weather" "\x7b\"location\": \"London\"\x7d",
       .tool_output "get_weather" "Partly cloudy\n\nwith sun" 150,
       .response "It is partly cloudy"] :=
  c2_log_codec_roundtrip _ (by decide)

/-! ### JSON

Model of the JavaScript platform builtins used by the trusted loop:
`JSON.parse` (via `jsonParse`) and `JSON.stringify(v, null, 2)` (via
`jsonStringify2`).  Numbers are restricted to integer numerals (no fraction
or exponent): every JSON payload in this development, and in the claims, is
integer-valued.  JavaScript values reaching the log are either parsed JSON
values or (when parsing throws) the raw argument string itself, so `Json`
doubles as the model of those runtime values, with `.str` for plain strings.
-/

inductive Json where
  | null
  | bool (b : Bool)
  | num (n : Int)
  | str (s : String)
  | arr (items : List Json)
  | obj (fields : List (String × Json))
deriving Repr

def hexDigitChar (n : Nat) : Char :=
  if n < 10 then Char.ofNat (48 + n) else Char.ofNat (87 + n)

def escapeJsonChar (c : Char) : List Char :=
  if c = '"' then ['\\', '"']
  else if c = '\\' then ['\\', '\\']
  else if c.val = 8 then ['\\', 'b']
  else if c.val = 12 then ['\\', 'f']
  else if c = '\n' then ['\\', 'n']
  else if c = '\r' then ['\\', 'r']
  else if c = '\t' then ['\\', 't']
  else if c.val < 32 then ['\\', 'u', '0', '0', hexDigitChar (c.toNat / 16), hexDigitChar (c.toNat % 16)]
  else [c]

def quoteJsonString (s : String) : String :=
  String.mk ('"' :: s.data.flatMap escapeJsonChar ++ ['"'])

def intToString (n : Int) : String :=
  if n < 0 then "-" ++ natToString n.natAbs else natToString n.natAbs

mutual

def serJson (indent : String) : Json → String
  | .null => "null"
  | .bool true => "true"
  | .bool false => "false"
  | .num n => intToString n
  | .str s => quoteJsonString s
  | .arr [] => "[]"
  | .arr (x :: xs) => "[\n" ++ serItems (indent ++ "  ") (x :: xs) ++ "\n" ++ indent ++ "]"
  | .obj [] => "\x7b\x7d"
  | .obj (f :: fs) => "\x7b\n" ++ serFields (indent ++ "  ") (f :: fs) ++ "\n" ++ indent ++ "\x7d"

def serItems (indent : String) : List Json → String
  | [] => ""
  | [x] => indent ++ serJson indent x
  | x :: y :: xs => indent ++ serJson indent x ++ ",\n" ++ serItems indent (y :: xs)

def serFields (indent : String) : List (String × Json) → String
  | [] => ""
  | [(k, v)] => indent ++ quoteJsonString k ++ ": " ++ serJson indent v
  | (k, v) :: g :: fs =>
    indent ++ quoteJsonString k ++ ": " ++ serJson indent v ++ ",\n" ++ serFields indent (g :: fs)

end

def jsonStringify2 (v : Json) : String := serJson "" v

def isJsonWs (c : Char) : Bool := c = ' ' || c = '\t' || c = '\n' || c = '\r'

def skipWs (cs : List Char) : List Char := cs.dropWhile isJsonWs

def hexVal (c : Char) : Option Nat :=
  if '0' ≤ c ∧ c ≤ '9' then some (c.toNat - 48)
  else if 'a' ≤ c ∧ c ≤ 'f' then some (c.toNat - 87)
  else if 'A' ≤ c ∧ c ≤ 'F' then some (c.toNat - 55)
  else none

def parseStringBody : List Char → Option (String × List Char)
  | [] => none
  | '"' :: rest => some ("", rest)
  | '\\' :: 'u' :: h1 :: h2 :: h3 :: h4 :: rest =>
    match hexVal h1, hexVal h2, hexVal h3, hexVal h4 with
    | some a, some b, some c, some d =>
      (parseStringBody rest).map
        (fun p => (String.mk (Char.ofNat (((a * 16 + b) * 16 + c) * 16 + d) :: p.1.data), p.2))
    | _, _, _, _ => none
  | '\\' :: e :: rest =>
    let c? : Option Char :=
      if e = '"' then some '"'
      else if e = '\\' then some '\\'
      else if e = '/' then some '/'
      else if e = 'b' then some (Char.ofNat 8)
      else if e = 'f' then some (Char.ofNat 12)
      else if e = 'n' then some '\n'
      else if e = 'r' then some '\r'
      else if e = 't' then some '\t'
      else none
    match c? with
    | some c => (parseStringBody rest).map (fun p => (String.mk (c :: p.1.data), p.2))
    | none => none
  | c :: rest =>
    if c.val < 32 then none
    else (parseStringBody rest).map (fun p => (String.mk (c :: p.1.data), p.2))

def parseDigitsRun (cs : List Char) : Option (Nat × List Char) :=
  let ds := cs.takeWhile Char.isDigit
  if ds = [] then none else some (charsToNat ds, cs.dropWhile Char.isDigit)

/-- Integer numerals of the JSON grammar: optional minus, no leading zero,
and a following `.`, `e` or `E` (a fraction or exponent) is out of the
modelled subset. -/
def parseIntLit (cs : List Char) : Option (Int × List Char) :=
  let core : List Char → Option (Int × List Char) := fun cs =>
    match cs with
    | '0' :: rest =>
      match rest with
      | c :: _ => if c.isDigit then none else some (0, rest)
      | [] => some (0, [])
    | _ =>
      match parseDigitsRun cs with
      | some (n, rest) => some ((n : Int), rest)
      | none => none
  let withSign : Option (Int × List Char) :=
    match cs with
    | '-' :: rest => (core rest).map (fun p => (-p.1, p.2))
    | _ => core cs
  match withSign with
  | some (n, rest) =>
    match rest with
    | c :: _ => if c = '.' ∨ c = 'e' ∨ c = 'E' then none else some (n, rest)
    | [] => some (n, [])
  | none => none

mutual

def parseJsonVal : Nat → List Char → Option (Json × List Char)
  | 0, _ => none
  | fuel + 1, cs =>
    match skipWs cs with
    | 'n' :: 'u' :: 'l' :: 'l' :: rest => some (.null, rest)
    | 't' :: 'r' :: 'u' :: 'e' :: rest => some (.bool true, rest)
    | 'f' :: 'a' :: 'l' :: 's' :: 'e' :: rest => some (.bool false, rest)
    | '"' :: rest => (parseStringBody rest).map (fun p => (.str p.1, p.2))
    | '[' :: rest =>
      (match skipWs rest with
       | ']' :: rest2 => some (.arr [], rest2)
       | _ => (parseJsonItems fuel rest).map (fun p => (.arr p.1, p.2)))
    | '\x7b' :: rest =>
      (match skipWs rest with
       | '\x7d' :: rest2 => some (.obj [], rest2)
       | _ => (parseJsonFields fuel rest).map (fun p => (.obj p.1, p.2)))
    | other => (parseIntLit other).map (fun p => (.num p.1, p.2))

def parseJsonItems : Nat → List Char → Option (List Json × List Char)
  | 0, _ => none
  | fuel + 1, cs =>
    match parseJsonVal fuel cs with
    | none => none
    | some (v, rest) =>
      match skipWs rest with
      | ',' :: rest2 => (parseJsonItems fuel rest2).map (fun p => (v :: p.1, p.2))
      | ']' :: rest2 => some ([v], rest2)
      | _ => none

def parseJsonFields : Nat → List Char → Option (List (String × Json) × List Char)
  | 0, _ => none
  | fuel + 1, cs =>
    match skipWs cs with
    | '"' :: rest =>
      match parseStringBody rest with
      | none => none
      | some (k, rest2) =>
        match skipWs rest2 with
        | ':' :: rest3 =>
          match parseJsonVal fuel rest3 with
          | none => none
          | some (v, rest4) =>
            match skipWs rest4 with
            | ',' :: rest5 => (parseJsonFields fuel rest5).map (fun p => ((k, v) :: p.1, p.2))
            | '\x7d' :: rest5 => some ([(k, v)], rest5)
            | _ => none
        | _ => none
    | _ => none

end

/-- `JSON.parse`: parse a complete value, allowing trailing whitespace only.
The fuel bound is generous: every recursive call follows the consumption of
at least one input character. -/
def jsonParse (s : String) : Option Json :=
  match parseJsonVal (2 * s.data.length + 4) s.data with
  | some (v, rest) => if skipWs rest = [] then some v else none
  | none => none

/-- Last-binding lookup on an object, matching JavaScript's duplicate-key
semantics after `JSON.parse`. -/
def lookupLast (k : String) (fs : List (String × Json)) : Option Json :=
  ((fs.filter (fun f => f.1 == k)).getLast?).map (fun f => f.2)

/-- JavaScript string coercion, as performed by the template
`[subagent] ${prompt}` for a non-string value. -/
def jsToDisplay : Json → String
  | .null => "null"
  | .bool true => "true"
  | .bool false => "false"
  | .num n => intToString n
  | .str s => s
  | .arr xs => joinSep "," (xs.attach.map (fun x => jsToDisplay x.1))
  | .obj _ => "[object Object]"
decreasing_by
  have := List.sizeOf_lt_of_mem x.2
  simp only [Json.arr.sizeOf_spec]
  omega

/-- The delegated prompt: models `(parsedArgs as {prompt: string}).prompt`
at its two use sites (the `[subagent] ${prompt}` log marker and the
sub-agent user message).  A missing field or a primitive receiver is JS
`undefined`, which those sites render as `"undefined"`.  (On a `null`
payload the real property access would throw a TypeError before reaching
either site; no claim exercises that corner, every delegation claim
hypothesises an object payload with a string `prompt`.) -/
def promptArg (v : Json) : String :=
  match v with
  | .obj fields =>
    match lookupLast "prompt" fields with
    | some (.str s) => s
    | some j => jsToDisplay j
    | none => "undefined"
  | _ => "undefined"

/-! ### Chat messages (the `Message` type of src/replay.ts and src/index.ts) -/

structure ToolCall where
  id : String
  name : String
  arguments : String
deriving DecidableEq, Repr

inductive ChatMessage where
  | system (content : String)
  | user (content : String)
  | assistant (content : Option String) (toolCalls : List ToolCall)
  | tool (content : String) (toolCallId : String)
deriving DecidableEq, Repr

/-! ### The replay projector (src/replay.ts, `entriesToMessages`)

The `while` loop over the entry index becomes recursion over the remaining
entry list; the inner gathering loop over a run of consecutive `tool_input`
entries becomes `gatherRun`, which returns the minted calls, the paired tool
results `(toolCallId, content)`, the unconsumed remainder, and the updated
`toolCallCounter`. -/

def mkReplayId (n : Nat) : String := "replay_" ++ natToString n

def gatherRun (counter : Nat) :
    List ConversationEntry →
      List ToolCall × List (String × String) × List ConversationEntry × Nat
  | .tool_input name content :: rest =>
    let callId := mkReplayId (counter + 1)
    (match rest with
     | .tool_output _ ocontent _ :: rest2 =>
       let g := gatherRun (counter + 1) rest2
       (⟨callId, name, content⟩ :: g.1, (callId, ocontent) :: g.2.1, g.2.2)
     | other =>
       let g := gatherRun (counter + 1) other
       (⟨callId, name, content⟩ :: g.1, (callId, "(no output recorded)") :: g.2.1, g.2.2))
  | l => ([], [], l, counter)
termination_by l => l.length
decreasing_by
  all_goals simp only [List.length_cons]
  all_goals omega

theorem gatherRun_rest_length (counter : Nat) (l : List ConversationEntry) :
    (gatherRun counter l).2.2.1.length ≤ l.length := by
  induction counter, l using gatherRun.induct with
  | case1 counter name content oname ocontent d rest2 ih =>
    simp only [gatherRun, List.length_cons]
    omega
  | case2 counter name content other hother ih =>
    simp only [gatherRun, List.length_cons]
    omega
  | case3 counter l hl =>
    cases l with
    | nil => simp [gatherRun]
    | cons e rest =>
      cases e with
      | prompt c => simp [gatherRun]
      | response c => simp [gatherRun]
      | tool_input n c => exact absurd rfl (hl n c rest)
      | tool_output n c d => simp [gatherRun]

theorem gatherRun_cons_length (counter : Nat) (name content : String)
    (rest : List ConversationEntry) :
    (gatherRun counter (.tool_input name content :: rest)).2.2.1.length ≤ rest.length := by
  cases rest with
  | nil => simp [gatherRun]
  | cons e rest2 =>
    cases e with
    | tool_output n oc d =>
      have h2 := gatherRun_rest_length (counter + 1) rest2
      simp only [gatherRun, List.length_cons]
      omega
    | prompt c =>
      have h := gatherRun_rest_length (counter + 1) (ConversationEntry.prompt c :: rest2)
      simp only [List.length_cons] at h
      simp only [gatherRun, List.length_cons]
      omega
    | response c =>
      have h := gatherRun_rest_length (counter + 1) (ConversationEntry.response c :: rest2)
      simp only [List.length_cons] at h
      simp only [gatherRun, List.length_cons]
      omega
    | tool_input n c =>
      have h := gatherRun_rest_length (counter + 1) (ConversationEntry.tool_input n c :: rest2)
      simp only [List.length_cons] at h
      simp only [gatherRun, List.length_cons]
      omega

def projectEntries (counter : Nat) : List ConversationEntry → List ChatMessage
  | [] => []
  | .prompt content :: rest => .user content :: projectEntries counter rest
  | .response _ :: rest => projectEntries counter rest
  | .tool_input name content :: rest =>
    let g := gatherRun counter (.tool_input name content :: rest)
    .assistant none g.1 ::
      (g.2.1.map (fun r => ChatMessage.tool r.2 r.1) ++ projectEntries g.2.2.2 g.2.2.1)
  | .tool_output _ _ _ :: rest => projectEntries counter rest
termination_by l => l.length
decreasing_by
  all_goals try simp only [List.length_cons]
  any_goals omega
  have h2 := gatherRun_cons_length counter name content rest
  omega

def entriesToMessages (systemPrompt : String) (entries : List ConversationEntry) :
    List ChatMessage :=
  .system systemPrompt :: projectEntries 0 entries

/-! ### Spec-side views of the projection: counts, runs, result selection -/

def countPrompt (es : List ConversationEntry) : Nat :=
  es.countP (fun e => match e with | .prompt _ => true | _ => false)

def countToolInput (es : List ConversationEntry) : Nat :=
  es.countP (fun e => match e with | .tool_input _ _ => true | _ => false)

/-- Rewrite the content of every `response` entry (used to state that the
projection is independent of response contents). -/
def mapResponseContents (f : String → String) (es : List ConversationEntry) :
    List ConversationEntry :=
  es.map (fun e => match e with | .response c => ConversationEntry.response (f c) | e => e)

/-- Remainder after one maximal run of `tool_input` entries, each optionally
consuming an immediately following `tool_output`. -/
def skipRun : List ConversationEntry → List ConversationEntry
  | .tool_input _ _ :: rest =>
    (match rest with
     | .tool_output _ _ _ :: rest2 => skipRun rest2
     | other => skipRun other)
  | l => l
termination_by l => l.length
decreasing_by
  all_goals simp only [List.length_cons]
  all_goals omega

/-- One maximal run as the spec describes it: the `(name, arguments)` of each
`tool_input` in order, paired with the content of its immediately following
`tool_output` when there is one. -/
def runChunk : List ConversationEntry → List ((String × String) × Option String)
  | .tool_input name content :: rest =>
    (match rest with
     | .tool_output _ ocontent _ :: rest2 => ((name, content), some ocontent) :: runChunk rest2
     | other => ((name, content), none) :: runChunk other)
  | _ => []
termination_by l => l.length
decreasing_by
  all_goals simp only [List.length_cons]
  all_goals omega

theorem skipRun_length (l : List ConversationEntry) : (skipRun l).length ≤ l.length := by
  induction l using skipRun.induct with
  | case1 name content oname ocontent d rest2 ih =>
    simp only [skipRun, List.length_cons]
    omega
  | case2 name content other hother ih =>
    simp only [skipRun, List.length_cons]
    omega
  | case3 l hl =>
    cases l with
    | nil => simp [skipRun]
    | cons e rest =>
      cases e with
      | prompt c => simp [skipRun]
      | response c => simp [skipRun]
      | tool_input n c => exact absurd rfl (hl n c rest)
      | tool_output n c d => simp [skipRun]

theorem skipRun_cons_length (name content : String) (rest : List ConversationEntry) :
    (skipRun (.tool_input name content :: rest)).length ≤ rest.length := by
  cases rest with
  | nil => simp [skipRun]
  | cons e rest2 =>
    cases e with
    | tool_output n oc d =>
      have := skipRun_length rest2
      simp only [skipRun, List.length_cons]
      omega
    | prompt c =>
      have h := skipRun_length (ConversationEntry.prompt c :: rest2)
      simp only [List.length_cons] at h
      simp only [skipRun, List.length_cons]
      omega
    | response c =>
      have h := skipRun_length (ConversationEntry.response c :: rest2)
      simp only [List.length_cons] at h
      simp only [skipRun, List.length_cons]
      omega
    | tool_input n c =>
      have h := skipRun_length (ConversationEntry.tool_input n c :: rest2)
      simp only [List.length_cons] at h
      simp only [skipRun, List.length_cons]
      omega

/-- Number of maximal `tool_input` runs. -/
def numRuns : List ConversationEntry → Nat
  | [] => 0
  | .tool_input name content :: rest => 1 + numRuns (skipRun (.tool_input name content :: rest))
  | _ :: rest => numRuns rest
termination_by l => l.length
decreasing_by
  all_goals simp only [List.length_cons]
  · have := skipRun_cons_length name content rest
    omega
  · omega

/-- The maximal runs, in order. -/
def runsOf : List ConversationEntry → List (List ((String × String) × Option String))
  | [] => []
  | .tool_input name content :: rest =>
    runChunk (.tool_input name content :: rest) ::
      runsOf (skipRun (.tool_input name content :: rest))
  | _ :: rest => runsOf rest
termination_by l => l.length
decreasing_by
  all_goals simp only [List.length_cons]
  · have := skipRun_cons_length name content rest
    omega
  · omega

/-- The content the spec prescribes for the tool message of each projected
`tool_input` entry, in order: the content of the entry immediately following
it when that entry is the (positionally) matching `tool_output`, and the
synthesized placeholder otherwise. -/
def toolContentsSpec : List ConversationEntry → List String
  | [] => []
  | .tool_input _ _ :: rest =>
    (match rest with
     | .tool_output _ ocontent _ :: _ => ocontent
     | _ => "(no output recorded)") :: toolContentsSpec rest
  | _ :: rest => toolContentsSpec rest

/-- The tool calls a run mints, starting after counter value `k`. -/
def mintCalls (k : Nat) : List ((String × String) × Option String) → List ToolCall
  | [] => []
  | p :: ch => ⟨mkReplayId (k + 1), p.1.1, p.1.2⟩ :: mintCalls (k + 1) ch

/-- The `(toolCallId, content)` results a run produces, starting after
counter value `k`. -/
def mintResults (k : Nat) : List ((String × String) × Option String) → List (String × String)
  | [] => []
  | p :: ch => (mkReplayId (k + 1), p.2.getD "(no output recorded)") :: mintResults (k + 1) ch

theorem mintCalls_length (k : Nat) (ch : List ((String × String) × Option String)) :
    (mintCalls k ch).length = ch.length := by
  induction ch generalizing k with
  | nil => rfl
  | cons p ch ih => simp [mintCalls, ih]

theorem mintResults_length (k : Nat) (ch : List ((String × String) × Option String)) :
    (mintResults k ch).length = ch.length := by
  induction ch generalizing k with
  | nil => rfl
  | cons p ch ih => simp [mintResults, ih]

/-- Full characterization of the gathering loop: the minted calls pair the
run entries with ids `replay_<counter+1> ...`, the results select the
immediately following output (or the placeholder), the remainder is the
run's remainder, and the counter advances by the run length. -/
theorem gatherRun_eq (counter : Nat) (l : List ConversationEntry) :
    gatherRun counter l =
      (mintCalls counter (runChunk l),
       mintResults counter (runChunk l),
       skipRun l,
       counter + (runChunk l).length) := by
  induction counter, l using gatherRun.induct with
  | case1 counter name content oname ocontent d rest2 ih =>
    simp only [gatherRun, runChunk, skipRun, ih, List.length_cons, mintCalls, mintResults,
      Prod.mk.injEq, true_and, and_true, Option.getD_some]
    omega
  | case2 counter name content other hother ih =>
    have hrc : runChunk (ConversationEntry.tool_input name content :: other) =
        ((name, content), none) :: runChunk other := by
      cases other with
      | nil => simp [runChunk]
      | cons e rest2 =>
        cases e with
        | prompt c => simp [runChunk]
        | response c => simp [runChunk]
        | tool_input n c => simp [runChunk]
        | tool_output n oc d => exact absurd rfl (hother n oc d rest2)
    have hsk : skipRun (ConversationEntry.tool_input name content :: other) = skipRun other := by
      cases other with
      | nil => simp [skipRun]
      | cons e rest2 =>
        cases e with
        | prompt c => simp [skipRun]
        | response c => simp [skipRun]
        | tool_input n c => simp [skipRun]
        | tool_output n oc d => exact absurd rfl (hother n oc d rest2)
    have hg : gatherRun counter (ConversationEntry.tool_input name content :: other) =
        (⟨mkReplayId (counter + 1), name, content⟩ :: (gatherRun (counter + 1) other).1,
         (mkReplayId (counter + 1), "(no output recorded)") :: (gatherRun (counter + 1) other).2.1,
         (gatherRun (counter + 1) other).2.2) := by
      cases other with
      | nil => simp [gatherRun]
      | cons e rest2 =>
        cases e with
        | prompt c => simp [gatherRun]
        | response c => simp [gatherRun]
        | tool_input n c => simp [gatherRun]
        | tool_output n oc d => exact absurd rfl (hother n oc d rest2)
    rw [hg, hrc, hsk, ih]
    simp only [List.length_cons, mintCalls, mintResults, Prod.mk.injEq,
      true_and, and_true, Option.getD_none]
    omega
  | case3 counter l hl =>
    have hrc : runChunk l = [] := by
      cases l with
      | nil => simp [runChunk]
      | cons e rest =>
        cases e with
        | prompt c => simp [runChunk]
        | response c => simp [runChunk]
        | tool_input n c => exact absurd rfl (hl n c rest)
        | tool_output n oc d => simp [runChunk]
    have hsk : skipRun l = l := by
      cases l with
      | nil => simp [skipRun]
      | cons e rest =>
        cases e with
        | prompt c => simp [skipRun]
        | response c => simp [skipRun]
        | tool_input n c => exact absurd rfl (hl n c rest)
        | tool_output n oc d => simp [skipRun]
    have hg : gatherRun counter l = ([], [], l, counter) := by
      cases l with
      | nil => simp [gatherRun]
      | cons e rest =>
        cases e with
        | prompt c => simp [gatherRun]
        | response c => simp [gatherRun]
        | tool_input n c => exact absurd rfl (hl n c rest)
        | tool_output n oc d => simp [gatherRun]
    rw [hg, hrc, hsk]
    simp [mintCalls, mintResults]

theorem runChunk_cons_not_to (name content : String) (other : List ConversationEntry)
    (hother : ∀ n oc d r2, other ≠ .tool_output n oc d :: r2) :
    runChunk (.tool_input name content :: other) = ((name, content), none) :: runChunk other := by
  cases other with
  | nil => simp [runChunk]
  | cons e rest2 =>
    cases e with
    | prompt c => simp [runChunk]
    | response c => simp [runChunk]
    | tool_input n c => simp [runChunk]
    | tool_output n oc d => exact absurd rfl (hother n oc d rest2)

theorem skipRun_cons_not_to (name content : String) (other : List ConversationEntry)
    (hother : ∀ n oc d r2, other ≠ .tool_output n oc d :: r2) :
    skipRun (.tool_input name content :: other) = skipRun other := by
  cases other with
  | nil => simp [skipRun]
  | cons e rest2 =>
    cases e with
    | prompt c => simp [skipRun]
    | response c => simp [skipRun]
    | tool_input n c => simp [skipRun]
    | tool_output n oc d => exact absurd rfl (hother n oc d rest2)

theorem runChunk_not_ti (l : List ConversationEntry)
    (hl : ∀ n c r, l ≠ .tool_input n c :: r) : runChunk l = [] := by
  cases l with
  | nil => simp [runChunk]
  | cons e rest =>
    cases e with
    | prompt c => simp [runChunk]
    | response c => simp [runChunk]
    | tool_input n c => exact absurd rfl (hl n c rest)
    | tool_output n oc d => simp [runChunk]

theorem skipRun_not_ti (l : List ConversationEntry)
    (hl : ∀ n c r, l ≠ .tool_input n c :: r) : skipRun l = l := by
  cases l with
  | nil => simp [skipRun]
  | cons e rest =>
    cases e with
    | prompt c => simp [skipRun]
    | response c => simp [skipRun]
    | tool_input n c => exact absurd rfl (hl n c rest)
    | tool_output n oc d => simp [skipRun]

theorem countPrompt_nil : countPrompt [] = 0 := rfl

theorem countPrompt_cons_prompt (c : String) (l : List ConversationEntry) :
    countPrompt (.prompt c :: l) = countPrompt l + 1 := by
  simp [countPrompt, List.countP_cons]

theorem countPrompt_cons_response (c : String) (l : List ConversationEntry) :
    countPrompt (.response c :: l) = countPrompt l := by
  simp [countPrompt, List.countP_cons]

theorem countPrompt_cons_ti (n c : String) (l : List ConversationEntry) :
    countPrompt (.tool_input n c :: l) = countPrompt l := by
  simp [countPrompt, List.countP_cons]

theorem countPrompt_cons_to (n c : String) (d : Nat) (l : List ConversationEntry) :
    countPrompt (.tool_output n c d :: l) = countPrompt l := by
  simp [countPrompt, List.countP_cons]

theorem countToolInput_nil : countToolInput [] = 0 := rfl

theorem countToolInput_cons_prompt (c : String) (l : List ConversationEntry) :
    countToolInput (.prompt c :: l) = countToolInput l := by
  simp [countToolInput, List.countP_cons]

theorem countToolInput_cons_response (c : String) (l : List ConversationEntry) :
    countToolInput (.response c :: l) = countToolInput l := by
  simp [countToolInput, List.countP_cons]

theorem countToolInput_cons_ti (n c : String) (l : List ConversationEntry) :
    countToolInput (.tool_input n c :: l) = countToolInput l + 1 := by
  simp [countToolInput, List.countP_cons]

theorem countToolInput_cons_to (n c : String) (d : Nat) (l : List ConversationEntry) :
    countToolInput (.tool_output n c d :: l) = countToolInput l := by
  simp [countToolInput, List.countP_cons]

theorem countToolInput_run (l : List ConversationEntry) :
    countToolInput l = (runChunk l).length + countToolInput (skipRun l) := by
  induction l using skipRun.induct with
  | case1 name content oname ocontent d rest2 ih =>
    simp only [runChunk, skipRun, countToolInput_cons_ti, countToolInput_cons_to,
      List.length_cons] at ih ⊢
    omega
  | case2 name content other hother ih =>
    rw [runChunk_cons_not_to name content other (fun n oc d r2 h => hother n oc d r2 h),
      skipRun_cons_not_to name content other (fun n oc d r2 h => hother n oc d r2 h),
      countToolInput_cons_ti]
    simp only [List.length_cons] at ih ⊢
    omega
  | case3 l hl =>
    rw [runChunk_not_ti l (fun n c r h => hl n c r h), skipRun_not_ti l (fun n c r h => hl n c r h)]
    simp

theorem countPrompt_skipRun (l : List ConversationEntry) :
    countPrompt (skipRun l) = countPrompt l := by
  induction l using skipRun.induct with
  | case1 name content oname ocontent d rest2 ih =>
    simp only [skipRun, countPrompt_cons_ti, countPrompt_cons_to] at ih ⊢
    omega
  | case2 name content other hother ih =>
    rw [skipRun_cons_not_to name content other (fun n oc d r2 h => hother n oc d r2 h),
      countPrompt_cons_ti]
    exact ih
  | case3 l hl =>
    rw [skipRun_not_ti l (fun n c r h => hl n c r h)]

theorem numRuns_cons_ti (name content : String) (rest : List ConversationEntry) :
    numRuns (.tool_input name content :: rest) =
      1 + numRuns (skipRun (.tool_input name content :: rest)) := by
  rw [numRuns]

theorem projectEntries_length (counter : Nat) (es : List ConversationEntry) :
    (projectEntries counter es).length =
      countPrompt es + countToolInput es + numRuns es := by
  induction counter, es using projectEntries.induct with
  | case1 counter =>
    simp [projectEntries, countPrompt, countToolInput, numRuns]
  | case2 counter content rest ih =>
    simp only [projectEntries, List.length_cons, countPrompt_cons_prompt,
      countToolInput_cons_prompt, numRuns] at ih ⊢
    omega
  | case3 counter content rest ih =>
    simp only [projectEntries, countPrompt_cons_response, countToolInput_cons_response,
      numRuns] at ih ⊢
    omega
  | case4 counter name content rest g ih =>
    have hg : g = gatherRun counter (ConversationEntry.tool_input name content :: rest) := rfl
    rw [hg] at ih
    simp only [gatherRun_eq] at ih
    rw [projectEntries]
    simp only [gatherRun_eq, List.length_cons, List.length_append, List.length_map,
      mintResults_length]
    rw [ih]
    have hc := countToolInput_run (.tool_input name content :: rest)
    have hp := countPrompt_skipRun (.tool_input name content :: rest)
    rw [numRuns_cons_ti]
    omega
  | case5 counter name content d rest ih =>
    simp only [projectEntries, countPrompt_cons_to, countToolInput_cons_to, numRuns] at ih ⊢
    omega

theorem runChunk_mapResponse (f : String → String) (l : List ConversationEntry) :
    runChunk (mapResponseContents f l) = runChunk l := by
  induction l using runChunk.induct with
  | case1 name content oname ocontent d rest2 ih =>
    simp only [mapResponseContents, List.map_cons] at ih ⊢
    simp only [runChunk, ih]
  | case2 name content other hother ih =>
    have hother2 : ∀ n oc d r2, mapResponseContents f other ≠ .tool_output n oc d :: r2 := by
      intro n oc d r2 h
      cases other with
      | nil => simp [mapResponseContents] at h
      | cons e r =>
        cases e with
        | prompt c => simp [mapResponseContents] at h
        | response c => simp [mapResponseContents] at h
        | tool_input n2 c2 => simp [mapResponseContents] at h
        | tool_output n2 c2 d2 => exact hother n2 c2 d2 r rfl
    have hstep : mapResponseContents f (ConversationEntry.tool_input name content :: other) =
        ConversationEntry.tool_input name content :: mapResponseContents f other := by
      simp [mapResponseContents]
    rw [hstep, runChunk_cons_not_to name content _ hother2,
      runChunk_cons_not_to name content other (fun n oc d r2 h => hother n oc d r2 h), ih]
  | case3 l hl =>
    have hl2 : ∀ n c r, mapResponseContents f l ≠ .tool_input n c :: r := by
      intro n c r h
      cases l with
      | nil => simp [mapResponseContents] at h
      | cons e rest =>
        cases e with
        | prompt c2 => simp [mapResponseContents] at h
        | response c2 => simp [mapResponseContents] at h
        | tool_input n2 c2 => exact hl n2 c2 rest rfl
        | tool_output n2 c2 d2 => simp [mapResponseContents] at h
    rw [runChunk_not_ti _ hl2, runChunk_not_ti l (fun n c r h => hl n c r h)]

theorem skipRun_mapResponse (f : String → String) (l : List ConversationEntry) :
    skipRun (mapResponseContents f l) = mapResponseContents f (skipRun l) := by
  induction l using skipRun.induct with
  | case1 name content oname ocontent d rest2 ih =>
    simp only [mapResponseContents, List.map_cons] at ih ⊢
    simp only [skipRun, ih]
  | case2 name content other hother ih =>
    have hother2 : ∀ n oc d r2, mapResponseContents f other ≠ .tool_output n oc d :: r2 := by
      intro n oc d r2 h
      cases other with
      | nil => simp [mapResponseContents] at h
      | cons e r =>
        cases e with
        | prompt c => simp [mapResponseContents] at h
        | response c => simp [mapResponseContents] at h
        | tool_input n2 c2 => simp [mapResponseContents] at h
        | tool_output n2 c2 d2 => exact hother n2 c2 d2 r rfl
    have hstep : mapResponseContents f (ConversationEntry.tool_input name content :: other) =
        ConversationEntry.tool_input name content :: mapResponseContents f other := by
      simp [mapResponseContents]
    rw [hstep, skipRun_cons_not_to name content _ hother2,
      skipRun_cons_not_to name content other (fun n oc d r2 h => hother n oc d r2 h), ih]
  | case3 l hl =>
    have hl2 : ∀ n c r, mapResponseContents f l ≠ .tool_input n c :: r := by
      intro n c r h
      cases l with
      | nil => simp [mapResponseContents] at h
      | cons e rest =>
        cases e with
        | prompt c2 => simp [mapResponseContents] at h
        | response c2 => simp [mapResponseContents] at h
        | tool_input n2 c2 => exact hl n2 c2 rest rfl
        | tool_output n2 c2 d2 => simp [mapResponseContents] at h
    rw [skipRun_not_ti _ hl2, skipRun_not_ti l (fun n c r h => hl n c r h)]

theorem projectEntries_mapResponse (f : String → String) (counter : Nat)
    (es : List ConversationEntry) :
    projectEntries counter (mapResponseContents f es) = projectEntries counter es := by
  induction counter, es using projectEntries.induct with
  | case1 counter => simp [mapResponseContents, projectEntries]
  | case2 counter content rest ih =>
    simp only [mapResponseContents, List.map_cons] at ih ⊢
    simp only [projectEntries, ih]
  | case3 counter content rest ih =>
    simp only [mapResponseContents, List.map_cons] at ih ⊢
    simp only [projectEntries, ih]
  | case4 counter name content rest g ih =>
    have hg : g = gatherRun counter (ConversationEntry.tool_input name content :: rest) := rfl
    rw [hg] at ih
    simp only [gatherRun_eq] at ih
    have hstep : mapResponseContents f (ConversationEntry.tool_input name content :: rest) =
        ConversationEntry.tool_input name content :: mapResponseContents f rest := by
      simp [mapResponseContents]
    rw [hstep, projectEntries, projectEntries]
    simp only [gatherRun_eq]
    rw [hstep.symm, runChunk_mapResponse, skipRun_mapResponse, ih]
  | case5 counter name content d rest ih =>
    simp only [mapResponseContents, List.map_cons] at ih ⊢
    simp only [projectEntries, ih]

/-- C4 counterexample — the claim "`messages.length` depends only on the
`prompt` and `tool_input` counts (not on their arrangement or on any other
entry kinds)" is false: two entry sequences with identical prompt and
tool-input counts project to message lists of different lengths, because a
`response` entry between two `tool_input` entries splits one run into two
assistant messages. -/
theorem c4_counterexample :
    countPrompt [ConversationEntry.tool_input "a" "x", ConversationEntry.tool_input "b" "y"] =
      countPrompt [ConversationEntry.tool_input "a" "x", ConversationEntry.response "r",
        ConversationEntry.tool_input "b" "y"] ∧
    countToolInput [ConversationEntry.tool_input "a" "x", ConversationEntry.tool_input "b" "y"] =
      countToolInput [ConversationEntry.tool_input "a" "x", ConversationEntry.response "r",
        ConversationEntry.tool_input "b" "y"] ∧
    (entriesToMessages "s" [ConversationEntry.tool_input "a" "x",
        ConversationEntry.tool_input "b" "y"]).length ≠
      (entriesToMessages "s" [ConversationEntry.tool_input "a" "x",
        ConversationEntry.response "r", ConversationEntry.tool_input "b" "y"]).length := by
  refine ⟨by decide, by decide, ?_⟩
  rw [entriesToMessages, entriesToMessages]
  simp only [List.length_cons, projectEntries_length]
  simp [numRuns, skipRun, countPrompt, countToolInput, List.countP_cons]

/-- C4 (amended) — Replay skip invariant of the message projector: the
projected message list carries no content derived from a `response` entry
(the projection is invariant under rewriting every response content), and
its length is `1 + #prompt + #tool_input + #(maximal tool-input runs)` —
it depends on the prompt count, the tool-input count, and the number of
maximal runs of consecutive tool entries, the last of which does depend on
the arrangement of the other entry kinds. -/
theorem c4_replay_skip (systemPrompt : String) (f : String → String)
    (entries : List ConversationEntry) :
    entriesToMessages systemPrompt (mapResponseContents f entries) =
      entriesToMessages systemPrompt entries ∧
    (entriesToMessages systemPrompt entries).length =
      1 + countPrompt entries + countToolInput entries + numRuns entries := by
  constructor
  · rw [entriesToMessages, entriesToMessages, projectEntries_mapResponse]
  · rw [entriesToMessages]
    simp only [List.length_cons, projectEntries_length]
    omega

/-! ### Views of message lists, for the grouping and result-selection claims -/

def isToolMsg : ChatMessage → Bool
  | .tool _ _ => true
  | _ => false

def assistantCallsOf : ChatMessage → Option (List (String × String))
  | .assistant _ toolCalls => some (toolCalls.map (fun c => (c.name, c.arguments)))
  | _ => none

def assistantIdsOf : ChatMessage → Option (List String)
  | .assistant _ toolCalls => some (toolCalls.map ToolCall.id)
  | _ => none

def toolContentOf : ChatMessage → Option String
  | .tool content _ => some content
  | _ => none

def toolIdOf : ChatMessage → Option String
  | .tool _ toolCallId => some toolCallId
  | _ => none

theorem mintCalls_map_nameArgs (k : Nat) (ch : List ((String × String) × Option String)) :
    (mintCalls k ch).map (fun c => (c.name, c.arguments)) = ch.map Prod.fst := by
  induction ch generalizing k with
  | nil => rfl
  | cons p ch ih => simp [mintCalls, ih]

theorem mintCalls_map_id (k : Nat) (ch : List ((String × String) × Option String)) :
    (mintCalls k ch).map ToolCall.id = (List.range' (k + 1) ch.length).map mkReplayId := by
  induction ch generalizing k with
  | nil => rfl
  | cons p ch ih => simp [mintCalls, List.range'_succ, ih]

theorem mintResults_map_fst (k : Nat) (ch : List ((String × String) × Option String)) :
    (mintResults k ch).map Prod.fst = (List.range' (k + 1) ch.length).map mkReplayId := by
  induction ch generalizing k with
  | nil => rfl
  | cons p ch ih => simp [mintResults, List.range'_succ, ih]

theorem mintResults_map_snd (k : Nat) (ch : List ((String × String) × Option String)) :
    (mintResults k ch).map Prod.snd = ch.map (fun p => p.2.getD "(no output recorded)") := by
  induction ch generalizing k with
  | nil => rfl
  | cons p ch ih => simp [mintResults, ih]

theorem toolContentsSpec_run (l : List ConversationEntry) :
    toolContentsSpec l =
      (runChunk l).map (fun p => p.2.getD "(no output recorded)") ++
        toolContentsSpec (skipRun l) := by
  induction l using skipRun.induct with
  | case1 name content oname ocontent d rest2 ih =>
    simp only [toolContentsSpec, runChunk, skipRun, List.map_cons, List.cons_append,
      Option.getD_some]
    rw [ih]
  | case2 name content other hother ih =>
    rw [runChunk_cons_not_to name content other (fun n oc d r2 h => hother n oc d r2 h),
      skipRun_cons_not_to name content other (fun n oc d r2 h => hother n oc d r2 h)]
    have hsel : toolContentsSpec (ConversationEntry.tool_input name content :: other) =
        "(no output recorded)" :: toolContentsSpec other := by
      cases other with
      | nil => rfl
      | cons e r =>
        cases e with
        | prompt c => rfl
        | response c => rfl
        | tool_input n c => rfl
        | tool_output n oc d => exact absurd rfl (hother n oc d r)
    rw [hsel, ih]
    simp
  | case3 l hl =>
    rw [runChunk_not_ti l (fun n c r h => hl n c r h), skipRun_not_ti l (fun n c r h => hl n c r h)]
    simp

theorem filterMap_toolBlock_assistantCallsOf (ps : List (String × String)) :
    (ps.map (fun r => ChatMessage.tool r.2 r.1)).filterMap assistantCallsOf = [] := by
  induction ps with
  | nil => rfl
  | cons p ps ih => simp only [List.map_cons, List.filterMap_cons, assistantCallsOf, ih]

theorem filterMap_toolBlock_assistantIdsOf (ps : List (String × String)) :
    (ps.map (fun r => ChatMessage.tool r.2 r.1)).filterMap assistantIdsOf = [] := by
  induction ps with
  | nil => rfl
  | cons p ps ih => simp only [List.map_cons, List.filterMap_cons, assistantIdsOf, ih]

theorem filterMap_toolBlock_toolContentOf (ps : List (String × String)) :
    (ps.map (fun r => ChatMessage.tool r.2 r.1)).filterMap toolContentOf = ps.map Prod.snd := by
  induction ps with
  | nil => rfl
  | cons p ps ih => simp only [List.map_cons, List.filterMap_cons, toolContentOf, ih]

theorem filterMap_toolBlock_toolIdOf (ps : List (String × String)) :
    (ps.map (fun r => ChatMessage.tool r.2 r.1)).filterMap toolIdOf = ps.map Prod.fst := by
  induction ps with
  | nil => rfl
  | cons p ps ih => simp only [List.map_cons, List.filterMap_cons, toolIdOf, ih]

/-- The map over results used to emit tool messages, as a zip of contents
with ids. -/
theorem pairs_map_tool (ps : List (String × String)) :
    ps.map (fun r => ChatMessage.tool r.2 r.1) =
      List.zipWith ChatMessage.tool (ps.map Prod.snd) (ps.map Prod.fst) := by
  induction ps with
  | nil => rfl
  | cons p ps ih => simp only [List.map_cons, List.zipWith_cons_cons, ih]

/-- One assistant message per maximal run, carrying the run's calls in entry
order. -/
theorem projectEntries_assistantRuns (counter : Nat) (es : List ConversationEntry) :
    (projectEntries counter es).filterMap assistantCallsOf =
      (runsOf es).map (fun ch => ch.map Prod.fst) := by
  induction counter, es using projectEntries.induct with
  | case1 counter => simp [projectEntries, runsOf]
  | case2 counter content rest ih =>
    simp only [projectEntries, List.filterMap_cons, assistantCallsOf, runsOf] at ih ⊢
    exact ih
  | case3 counter content rest ih =>
    simp only [projectEntries, runsOf] at ih ⊢
    exact ih
  | case4 counter name content rest g ih =>
    have hg : g = gatherRun counter (ConversationEntry.tool_input name content :: rest) := rfl
    rw [hg] at ih
    simp only [gatherRun_eq] at ih
    rw [projectEntries]
    simp only [gatherRun_eq, List.filterMap_cons, assistantCallsOf, List.filterMap_append,
      runsOf, List.map_cons]
    rw [mintCalls_map_nameArgs, filterMap_toolBlock_assistantCallsOf, List.nil_append, ih]
  | case5 counter name content d rest ih =>
    simp only [projectEntries, runsOf] at ih ⊢
    exact ih

/-- The projected tool-message contents, in order, are exactly the
spec-selected contents for the `tool_input` entries. -/
theorem projectEntries_toolContents (counter : Nat) (es : List ConversationEntry) :
    (projectEntries counter es).filterMap toolContentOf = toolContentsSpec es := by
  induction counter, es using projectEntries.induct with
  | case1 counter => simp [projectEntries, toolContentsSpec]
  | case2 counter content rest ih =>
    simp only [projectEntries, List.filterMap_cons, toolContentOf, toolContentsSpec] at ih ⊢
    exact ih
  | case3 counter content rest ih =>
    simp only [projectEntries, toolContentsSpec] at ih ⊢
    exact ih
  | case4 counter name content rest g ih =>
    have hg : g = gatherRun counter (ConversationEntry.tool_input name content :: rest) := rfl
    rw [hg] at ih
    simp only [gatherRun_eq] at ih
    rw [projectEntries]
    simp only [gatherRun_eq, List.filterMap_cons, toolContentOf, List.filterMap_append]
    rw [filterMap_toolBlock_toolContentOf, mintResults_map_snd, ih,
      toolContentsSpec_run (ConversationEntry.tool_input name content :: rest)]
  | case5 counter name content d rest ih =>
    simp only [projectEntries, toolContentsSpec] at ih ⊢
    exact ih

/-- The projected tool-message ids, in order, are the freshly minted
`replay_<k>` ids. -/
theorem projectEntries_toolIds (counter : Nat) (es : List ConversationEntry) :
    (projectEntries counter es).filterMap toolIdOf =
      (List.range' (counter + 1) (countToolInput es)).map mkReplayId := by
  induction counter, es using projectEntries.induct with
  | case1 counter => simp [projectEntries, countToolInput_nil]
  | case2 counter content rest ih =>
    simp only [projectEntries, List.filterMap_cons, toolIdOf, countToolInput_cons_prompt] at ih ⊢
    exact ih
  | case3 counter content rest ih =>
    simp only [projectEntries, countToolInput_cons_response] at ih ⊢
    exact ih
  | case4 counter name content rest g ih =>
    have hg : g = gatherRun counter (ConversationEntry.tool_input name content :: rest) := rfl
    rw [hg] at ih
    simp only [gatherRun_eq] at ih
    rw [projectEntries]
    simp only [gatherRun_eq, List.filterMap_cons, toolIdOf, List.filterMap_append]
    rw [filterMap_toolBlock_toolIdOf, mintResults_map_fst, ih,
      countToolInput_run (ConversationEntry.tool_input name content :: rest)]
    rw [← List.map_append]
    congr 1
    rw [show counter + (runChunk (ConversationEntry.tool_input name content :: rest)).length + 1 =
        (counter + 1) + (runChunk (ConversationEntry.tool_input name content :: rest)).length
      from by omega]
    rw [List.range'_append_1]
    congr 1
    omega
  | case5 counter name content d rest ih =>
    simp only [projectEntries, countToolInput_cons_to] at ih ⊢
    exact ih

/-- The minted call ids carried by the assistant messages, flattened in
order, are the same id sequence the tool messages carry. -/
theorem projectEntries_assistantIds (counter : Nat) (es : List ConversationEntry) :
    ((projectEntries counter es).filterMap assistantIdsOf).flatten =
      (List.range' (counter + 1) (countToolInput es)).map mkReplayId := by
  induction counter, es using projectEntries.induct with
  | case1 counter => simp [projectEntries, countToolInput_nil]
  | case2 counter content rest ih =>
    simp only [projectEntries, List.filterMap_cons, assistantIdsOf,
      countToolInput_cons_prompt] at ih ⊢
    exact ih
  | case3 counter content rest ih =>
    simp only [projectEntries, countToolInput_cons_response] at ih ⊢
    exact ih
  | case4 counter name content rest g ih =>
    have hg : g = gatherRun counter (ConversationEntry.tool_input name content :: rest) := rfl
    rw [hg] at ih
    simp only [gatherRun_eq] at ih
    rw [projectEntries]
    simp only [gatherRun_eq, List.filterMap_cons, assistantIdsOf, List.filterMap_append,
      List.flatten_cons]
    rw [filterMap_toolBlock_assistantIdsOf, List.nil_append, mintCalls_map_id, ih,
      countToolInput_run (ConversationEntry.tool_input name content :: rest)]
    rw [← List.map_append]
    congr 1
    rw [show counter + (runChunk (ConversationEntry.tool_input name content :: rest)).length + 1 =
        (counter + 1) + (runChunk (ConversationEntry.tool_input name content :: rest)).length
      from by omega]
    rw [List.range'_append_1]
    congr 1
    omega
  | case5 counter name content d rest ih =>
    simp only [projectEntries, countToolInput_cons_to] at ih ⊢
    exact ih

theorem runChunk_cons_ne_nil (name content : String) (rest : List ConversationEntry) :
    runChunk (.tool_input name content :: rest) ≠ [] := by
  cases rest with
  | nil => simp [runChunk]
  | cons e r =>
    cases e with
    | prompt c => simp [runChunk]
    | response c => simp [runChunk]
    | tool_input n c => simp [runChunk]
    | tool_output n oc d => simp [runChunk]

theorem mintCalls_ne_nil (k : Nat) (ch : List ((String × String) × Option String))
    (h : ch ≠ []) : mintCalls k ch ≠ [] := by
  cases ch with
  | nil => exact absurd rfl h
  | cons p ch => simp [mintCalls]

/-- The shape every projected message list has: a sequence of `user`
messages and complete tool blocks — one assistant message immediately
followed by exactly its own tool results, in call order. -/
inductive BlockShape : List ChatMessage → Prop
  | nil : BlockShape []
  | user (content : String) (ms : List ChatMessage) :
      BlockShape ms → BlockShape (.user content :: ms)
  | block (toolCalls : List ToolCall) (contents : List String) (ms : List ChatMessage)
      (hlen : contents.length = toolCalls.length) (hne : toolCalls ≠ [])
      (h : BlockShape ms) :
      BlockShape (.assistant none toolCalls ::
        (List.zipWith ChatMessage.tool contents (toolCalls.map ToolCall.id) ++ ms))

theorem projectEntries_blockShape (counter : Nat) (es : List ConversationEntry) :
    BlockShape (projectEntries counter es) := by
  induction counter, es using projectEntries.induct with
  | case1 counter =>
    rw [projectEntries]
    exact BlockShape.nil
  | case2 counter content rest ih =>
    rw [projectEntries]
    exact BlockShape.user content _ ih
  | case3 counter content rest ih =>
    rw [projectEntries]
    exact ih
  | case4 counter name content rest g ih =>
    have hg : g = gatherRun counter (ConversationEntry.tool_input name content :: rest) := rfl
    rw [hg] at ih
    simp only [gatherRun_eq] at ih
    rw [projectEntries]
    simp only [gatherRun_eq]
    rw [pairs_map_tool, mintResults_map_fst, ← mintCalls_map_id]
    have hb := BlockShape.block
      (mintCalls counter (runChunk (ConversationEntry.tool_input name content :: rest)))
      ((mintResults counter (runChunk (ConversationEntry.tool_input name content :: rest))).map
        Prod.snd)
      (projectEntries
        (counter + (runChunk (ConversationEntry.tool_input name content :: rest)).length)
        (skipRun (ConversationEntry.tool_input name content :: rest)))
      (by rw [List.length_map, mintResults_length, mintCalls_length])
      (mintCalls_ne_nil _ _ (runChunk_cons_ne_nil name content rest))
      ih
    exact hb
  | case5 counter name content d rest ih =>
    rw [projectEntries]
    exact ih

theorem blockShape_head_not_tool (ms : List ChatMessage) (h : BlockShape ms) :
    ∀ m, ms.head? = some m → isToolMsg m = false := by
  cases h with
  | nil => intro m hm; simp at hm
  | user content ms hms =>
    intro m hm
    simp only [List.head?_cons, Option.some.injEq] at hm
    rw [← hm]
    rfl
  | block toolCalls contents ms hlen hne hms =>
    intro m hm
    simp only [List.head?_cons, Option.some.injEq] at hm
    rw [← hm]
    rfl

theorem isToolMsg_of_mem_zipWith (a : List String) (b : List String) (x : ChatMessage)
    (hx : x ∈ List.zipWith ChatMessage.tool a b) : isToolMsg x = true := by
  induction a generalizing b with
  | nil => simp at hx
  | cons c a ih =>
    cases b with
    | nil => simp at hx
    | cons i b =>
      simp only [List.zipWith_cons_cons, List.mem_cons] at hx
      rcases hx with rfl | hx
      · rfl
      · exact ih b hx

theorem drop_append_ge {α : Type} (l r : List α) (n : Nat) (h : l.length ≤ n) :
    (l ++ r).drop n = r.drop (n - l.length) := by
  induction l generalizing n with
  | nil => simp
  | cons x l ih =>
    cases n with
    | zero => simp at h
    | succ n =>
      simp only [List.length_cons] at h
      simp only [List.cons_append, List.drop_succ_cons, List.length_cons]
      rw [ih n (by omega)]
      congr 1
      omega

/-- In a `BlockShape` list, every assistant message opens a complete tool
block: it is immediately followed by exactly one tool message per call,
with matching ids in call order, and the first message after the block (if
any) is not a tool message. -/
theorem blockShape_assistant (ms : List ChatMessage) (h : BlockShape ms) :
    ∀ j co cs, ms[j]? = some (.assistant co cs) →
      cs ≠ [] ∧ ∃ contents tail, contents.length = cs.length ∧
        ms.drop j = .assistant co cs ::
          (List.zipWith ChatMessage.tool contents (cs.map ToolCall.id) ++ tail) ∧
        ∀ m, tail.head? = some m → isToolMsg m = false := by
  induction h with
  | nil => intro j co cs hj; simp at hj
  | user content ms hms ih =>
    intro j co cs hj
    cases j with
    | zero => simp at hj
    | succ j =>
      rw [List.getElem?_cons_succ] at hj
      obtain ⟨hne, contents, tail, hlen, hdrop, htail⟩ := ih j co cs hj
      exact ⟨hne, contents, tail, hlen, by rw [List.drop_succ_cons, hdrop], htail⟩
  | block toolCalls contents ms hlen hne hms ih =>
    intro j co cs hj
    cases j with
    | zero =>
      rw [List.getElem?_cons_zero, Option.some.injEq] at hj
      obtain ⟨rfl, rfl⟩ : co = none ∧ cs = toolCalls := by
        cases hj
        exact ⟨rfl, rfl⟩
      refine ⟨hne, contents, ms, hlen, by simp, blockShape_head_not_tool ms hms⟩
    | succ j =>
      rw [List.getElem?_cons_succ] at hj
      by_cases hij : j < (List.zipWith ChatMessage.tool contents (toolCalls.map ToolCall.id)).length
      · rw [List.getElem?_append_left hij] at hj
        have hmem : ChatMessage.assistant co cs ∈
            List.zipWith ChatMessage.tool contents (toolCalls.map ToolCall.id) :=
          List.getElem?_mem hj
        have := isToolMsg_of_mem_zipWith _ _ _ hmem
        simp [isToolMsg] at this
      · push_neg at hij
        rw [List.getElem?_append_right hij] at hj
        obtain ⟨hne2, c2, t2, hlen2, hdrop2, ht2⟩ := ih _ co cs hj
        refine ⟨hne2, c2, t2, hlen2, ?_, ht2⟩
        rw [List.drop_succ_cons, drop_append_ge _ _ j hij, hdrop2]

/-- C5 — Tool-call grouping invariant: (i) the assistant messages of a
projection carry, in order, exactly the `(name, arguments)` lists of the
maximal `tool_input` runs (one assistant message per maximal run, calls in
entry order); (ii) every assistant message in the projected list is followed
immediately by exactly one tool message per carried call, whose
`toolCallId`s are the freshly minted call ids in the same relative order,
and the first message after the block is not a tool message. -/
theorem c5_tool_call_grouping (systemPrompt : String) (entries : List ConversationEntry) :
    ((entriesToMessages systemPrompt entries).filterMap assistantCallsOf =
      (runsOf entries).map (fun ch => ch.map Prod.fst)) ∧
    ∀ j co cs, (entriesToMessages systemPrompt entries)[j]? = some (.assistant co cs) →
      cs ≠ [] ∧ ∃ contents tail, contents.length = cs.length ∧
        (entriesToMessages systemPrompt entries).drop j = .assistant co cs ::
          (List.zipWith ChatMessage.tool contents (cs.map ToolCall.id) ++ tail) ∧
        ∀ m, tail.head? = some m → isToolMsg m = false := by
  constructor
  · rw [entriesToMessages]
    rw [show (ChatMessage.system systemPrompt :: projectEntries 0 entries).filterMap
        assistantCallsOf = (projectEntries 0 entries).filterMap assistantCallsOf from by
      simp [List.filterMap_cons, assistantCallsOf]]
    exact projectEntries_assistantRuns 0 entries
  · intro j co cs hj
    rw [entriesToMessages] at hj ⊢
    cases j with
    | zero => simp at hj
    | succ j =>
      rw [List.getElem?_cons_succ] at hj
      obtain ⟨hne, contents, tail, hlen, hdrop, htail⟩ :=
        blockShape_assistant _ (projectEntries_blockShape 0 entries) j co cs hj
      exact ⟨hne, contents, tail, hlen, by rw [List.drop_succ_cons, hdrop], htail⟩

theorem c5_tool_call_grouping_witness :
    (([⟨"replay_1", "a", "x"⟩, ⟨"replay_2", "b", "y"⟩] : List ToolCall) ≠ [] ∧
      ∃ contents tail, contents.length =
          ([⟨"replay_1", "a", "x"⟩, ⟨"replay_2", "b", "y"⟩] : List ToolCall).length ∧
        (entriesToMessages "s" [ConversationEntry.prompt "p",
            ConversationEntry.tool_input "a" "x", ConversationEntry.tool_output "a" "r" 5,
            ConversationEntry.tool_input "b" "y"]).drop 2 =
          ChatMessage.assistant none [⟨"replay_1", "a", "x"⟩, ⟨"replay_2", "b", "y"⟩] ::
            (List.zipWith ChatMessage.tool contents
              (([⟨"replay_1", "a", "x"⟩, ⟨"replay_2", "b", "y"⟩] :
                List ToolCall).map ToolCall.id) ++ tail) ∧
        ∀ m, tail.head? = some m → isToolMsg m = false) :=
  (c5_tool_call_grouping "s" [ConversationEntry.prompt "p",
      ConversationEntry.tool_input "a" "x", ConversationEntry.tool_output "a" "r" 5,
      ConversationEntry.tool_input "b" "y"]).2 2 none
    [⟨"replay_1", "a", "x"⟩, ⟨"replay_2", "b", "y"⟩]
    (by
      rw [show entriesToMessages "s" [ConversationEntry.prompt "p",
          ConversationEntry.tool_input "a" "x", ConversationEntry.tool_output "a" "r" 5,
          ConversationEntry.tool_input "b" "y"] =
        [.system "s", .user "p",
         .assistant none [⟨"replay_1", "a", "x"⟩, ⟨"replay_2", "b", "y"⟩],
         .tool "r" "replay_1", .tool "(no output recorded)" "replay_2"] from by
          simp [entriesToMessages, projectEntries, gatherRun, mkReplayId, natToString, digitsAux]
          decide]
      rfl)

/-- C6 — Tool-result selection: the projected tool messages carry, in order,
for every `tool_input` entry the content of the entry immediately following
it when that entry is the (positionally) matching `tool_output`, and
`"(no output recorded)"` otherwise; their `toolCallId`s are exactly the
minted ids `replay_1, replay_2, ...` in order, the same id sequence, in the
same relative order, as the calls carried by the assistant messages. -/
theorem c6_tool_result_selection (systemPrompt : String) (entries : List ConversationEntry) :
    ((entriesToMessages systemPrompt entries).filterMap toolContentOf =
      toolContentsSpec entries) ∧
    ((entriesToMessages systemPrompt entries).filterMap toolIdOf =
      (List.range' 1 (countToolInput entries)).map mkReplayId) ∧
    ((entriesToMessages systemPrompt entries).filterMap assistantIdsOf).flatten =
      (entriesToMessages systemPrompt entries).filterMap toolIdOf := by
  have h0 : (entriesToMessages systemPrompt entries).filterMap toolContentOf =
      (projectEntries 0 entries).filterMap toolContentOf := by
    rw [entriesToMessages]
    simp [List.filterMap_cons, toolContentOf]
  have h1 : (entriesToMessages systemPrompt entries).filterMap toolIdOf =
      (projectEntries 0 entries).filterMap toolIdOf := by
    rw [entriesToMessages]
    simp [List.filterMap_cons, toolIdOf]
  have h2 : (entriesToMessages systemPrompt entries).filterMap assistantIdsOf =
      (projectEntries 0 entries).filterMap assistantIdsOf := by
    rw [entriesToMessages]
    simp [List.filterMap_cons, assistantIdsOf]
  refine ⟨?_, ?_, ?_⟩
  · rw [h0, projectEntries_toolContents]
  · rw [h1, projectEntries_toolIds]
  · rw [h2, h1, projectEntries_assistantIds, projectEntries_toolIds]

/-! ### The agent loops (src/index.ts)

The chat transport is a `Script`: the finite sequence of responses the
successive `client.chat.send` calls receive, shared by the trusted loop and
any sub-agent runs (they use the same client); `none`, like an exhausted
script, models a completion with no usable message.  Tool executors are
`Exec`: `handleToolCall` with its notes path fixed, where `.error m` models
a thrown error carrying message `m` (`err.message`).  Durations are
modelled as 0. -/

structure ModelMsg where
  content : Option String
  toolCalls : List ToolCall
deriving Repr

abbrev Script := List (Option ModelMsg)

abbrev Exec := String → String → Except String String

/-- The normalized result string of one dispatched call: the executor's
return value, or the caught-error form `Error in <name>: <message>`. -/
def dispatchResult (exec : Exec) (tc : ToolCall) : String :=
  match exec tc.name tc.arguments with
  | .ok result => result
  | .error e => "Error in " ++ tc.name ++ ": " ++ e

def dispatchMessages (exec : Exec) (tcs : List ToolCall) : List ChatMessage :=
  tcs.map (fun tc => ChatMessage.tool (dispatchResult exec tc) tc.id)

/-- Log entries of an untrusted-loop batch: raw arguments, then the result. -/
def dispatchLogs (exec : Exec) (tcs : List ToolCall) : List ConversationEntry :=
  tcs.flatMap (fun tc =>
    [ConversationEntry.tool_input tc.name tc.arguments,
     ConversationEntry.tool_output tc.name (dispatchResult exec tc) 0])

/-- `JSON.parse` with the catch branch: the parsed value, or the raw
argument string as a JS string value when parsing throws. -/
def parsedArgsOf (tc : ToolCall) : Json :=
  (jsonParse tc.arguments).getD (.str tc.arguments)

/-- What the trusted loop logs as `tool_input` content:
`JSON.stringify(parsedArgs, null, 2)`. -/
def canonContent (arguments : String) : String :=
  jsonStringify2 ((jsonParse arguments).getD (.str arguments))

/-- Log entries of a trusted-loop batch of non-delegation calls:
canonicalized arguments, then the result of executing the raw arguments. -/
def trustedCallLogs (exec : Exec) (tcs : List ToolCall) : List ConversationEntry :=
  tcs.flatMap (fun tc =>
    [ConversationEntry.tool_input tc.name (canonContent tc.arguments),
     ConversationEntry.tool_output tc.name (dispatchResult exec tc) 0])

def isSubagentMsg : ChatMessage → Bool
  | .assistant _ _ => true
  | .tool _ _ => true
  | _ => false

namespace Cli

def untrustedSystemPrompt : String :=
  "You are a helpful assistant. Answer the user's question using the available tools. Be concise."

/-- The tool-call `for` loop of `untrustedChat` (src/index.ts 131-178). -/
def untrustedToolPass (exec : Exec) :
    List ToolCall → List ChatMessage → List ConversationEntry →
      List ChatMessage × List ConversationEntry
  | [], messages, conversationLog => (messages, conversationLog)
  | toolCall :: rest, messages, conversationLog =>
    let conversationLog := conversationLog ++
      [ConversationEntry.tool_input toolCall.name toolCall.arguments]
    match exec toolCall.name toolCall.arguments with
    | .ok result =>
      untrustedToolPass exec rest (messages ++ [.tool result toolCall.id])
        (conversationLog ++ [.tool_output toolCall.name result 0])
    | .error e =>
      let errorMsg := "Error in " ++ toolCall.name ++ ": " ++ e
      untrustedToolPass exec rest (messages ++ [.tool errorMsg toolCall.id])
        (conversationLog ++ [.tool_output toolCall.name errorMsg 0])

/-- `untrustedChat` (src/index.ts 103-184), with the in-place mutation of
`messages` and `conversationLog` made explicit in the result. -/
def untrustedChat (exec : Exec) :
    Script → List ChatMessage → List ConversationEntry →
      String × List ChatMessage × List ConversationEntry × Script
  | [], messages, conversationLog =>
    ("Error: no response from subagent.", messages, conversationLog, [])
  | none :: rest, messages, conversationLog =>
    ("Error: no response from subagent.", messages, conversationLog, rest)
  | some msg :: rest, messages, conversationLog =>
    match msg.toolCalls with
    | [] => (msg.content.getD "", messages, conversationLog, rest)
    | toolCall :: more =>
      let messages := messages ++ [.assistant msg.content (toolCall :: more)]
      let p := untrustedToolPass exec (toolCall :: more) messages conversationLog
      untrustedChat exec rest p.1 p.2

/-- `runUntrustedSubagent` (src/index.ts 186-205): logs the
`[subagent] <prompt>` marker and starts the sub-agent loop on a fresh
message list containing only the fixed generic system prompt and the task. -/
def runUntrustedSubagent (exec : Exec) (script : Script) (prompt : String)
    (conversationLog : List ConversationEntry) :
    String × List ChatMessage × List ConversationEntry × Script :=
  let conversationLog := conversationLog ++
    [ConversationEntry.response ("[subagent] " ++ prompt)]
  let messages : List ChatMessage :=
    [.system untrustedSystemPrompt, .user prompt]
  untrustedChat exec script messages conversationLog

/-- The mutable locals of `chat` (src/index.ts 207-329) during one batch. -/
structure BatchState where
  messages : List ChatMessage
  toolsUsed : List String
  toolInputs : List (String × Json)
  conversationLog : List ConversationEntry
  script : Script
  delegateResult : Option String

/-- The tool-call `for` loop of `chat` (src/index.ts 245-311). -/
def processTrustedCalls (exec execU : Exec) : List ToolCall → BatchState → BatchState
  | [], st => st
  | toolCall :: rest, st =>
    let parsedArgs := (jsonParse toolCall.arguments).getD (.str toolCall.arguments)
    let toolsUsed := st.toolsUsed ++ [toolCall.name]
    let toolInputs := st.toolInputs ++ [(toolCall.name, parsedArgs)]
    let conversationLog := st.conversationLog ++
      [ConversationEntry.tool_input toolCall.name (jsonStringify2 parsedArgs)]
    if toolCall.name = "delegate_to_untrusted" then
      let r := runUntrustedSubagent execU st.script (promptArg parsedArgs) conversationLog
      processTrustedCalls exec execU rest
        ⟨st.messages, toolsUsed, toolInputs, r.2.2.1, r.2.2.2, some r.1⟩
    else
      match exec toolCall.name toolCall.arguments with
      | .ok result =>
        processTrustedCalls exec execU rest
          ⟨st.messages ++ [.tool result toolCall.id], toolsUsed, toolInputs,
           conversationLog ++ [.tool_output toolCall.name result 0], st.script,
           st.delegateResult⟩
      | .error e =>
        let errorMsg := "Error in " ++ toolCall.name ++ ": " ++ e
        processTrustedCalls exec execU rest
          ⟨st.messages ++ [.tool errorMsg toolCall.id], toolsUsed, toolInputs,
           conversationLog ++ [.tool_output toolCall.name errorMsg 0], st.script,
           st.delegateResult⟩

theorem untrustedChat_script_length (exec : Exec) (script : Script)
    (messages : List ChatMessage) (conversationLog : List ConversationEntry) :
    (untrustedChat exec script messages conversationLog).2.2.2.length ≤ script.length := by
  induction script generalizing messages conversationLog with
  | nil => simp [untrustedChat]
  | cons o rest ih =>
    cases o with
    | none => simp [untrustedChat]
    | some msg =>
      simp only [untrustedChat]
      match msg.toolCalls with
      | [] =>
        simp only [List.length_cons]
        omega
      | toolCall :: more =>
        simp only [List.length_cons]
        have := ih (messages ++ [.assistant msg.content (toolCall :: more)]) conversationLog
        exact Nat.le_succ_of_le (le_trans (ih _ _) (le_refl _))

theorem runUntrustedSubagent_script_length (exec : Exec) (script : Script) (prompt : String)
    (conversationLog : List ConversationEntry) :
    (runUntrustedSubagent exec script prompt conversationLog).2.2.2.length ≤ script.length := by
  rw [runUntrustedSubagent]
  exact untrustedChat_script_length exec script _ _

theorem processTrustedCalls_script_length (exec execU : Exec) (tcs : List ToolCall)
    (st : BatchState) :
    (processTrustedCalls exec execU tcs st).script.length ≤ st.script.length := by
  induction tcs generalizing st with
  | nil => simp [processTrustedCalls]
  | cons toolCall rest ih =>
    simp only [processTrustedCalls]
    split
    · exact le_trans (ih _) (runUntrustedSubagent_script_length execU st.script _ _)
    · split
      · exact ih _
      · exact ih _

/-- `chat` (src/index.ts 207-329): `none` models `process.exit(1)` when the
transport returns no message. -/
def chat (exec execU : Exec) :
    Script → List ChatMessage → List String → List (String × Json) →
      List ConversationEntry → Option (String × BatchState)
  | [], _, _, _, _ => none
  | none :: _, _, _, _, _ => none
  | some msg :: rest, messages, toolsUsed, toolInputs, conversationLog =>
    match msg.toolCalls with
    | [] =>
      some (msg.content.getD "",
        ⟨messages, toolsUsed, toolInputs, conversationLog, rest, none⟩)
    | toolCall :: more =>
      let conversationLog :=
        match msg.content with
        | some c =>
          if c = "" then conversationLog else conversationLog ++ [ConversationEntry.response c]
        | none => conversationLog
      let messages := messages ++ [.assistant msg.content (toolCall :: more)]
      let st := processTrustedCalls exec execU (toolCall :: more)
        ⟨messages, toolsUsed, toolInputs, conversationLog, rest, none⟩
      match st.delegateResult with
      | some r => some (r, st)
      | none =>
        chat exec execU st.script st.messages st.toolsUsed st.toolInputs st.conversationLog
termination_by script => script.length
decreasing_by
  refine Nat.lt_of_le_of_lt
    (processTrustedCalls_script_length exec execU (toolCall :: more) _) ?_
  simp

/-- The batch appends exactly one tool message per non-delegation call. -/
theorem processTrustedCalls_messages (exec execU : Exec) (tcs : List ToolCall)
    (st : BatchState) :
    (processTrustedCalls exec execU tcs st).messages =
      st.messages ++ (tcs.filter (fun tc => !(tc.name == "delegate_to_untrusted"))).map
        (fun tc => ChatMessage.tool (dispatchResult exec tc) tc.id) := by
  induction tcs generalizing st with
  | nil => simp [processTrustedCalls]
  | cons toolCall rest ih =>
    by_cases hname : toolCall.name = "delegate_to_untrusted"
    · simp only [processTrustedCalls, if_pos hname, hname, if_true]
      rw [ih]
      simp [List.filter_cons, hname]
    · cases hex : exec toolCall.name toolCall.arguments with
      | ok result =>
        simp only [processTrustedCalls, if_neg hname, hex]
        rw [ih]
        have hb : (toolCall.name == "delegate_to_untrusted") = false := by
          simp [hname]
        simp [hb, hex, dispatchResult]
      | error e =>
        simp only [processTrustedCalls, if_neg hname, hex]
        rw [ih]
        have hb : (toolCall.name == "delegate_to_untrusted") = false := by
          simp [hname]
        simp [hb, hex, dispatchResult]

theorem untrustedToolPass_eq (exec : Exec) (tcs : List ToolCall)
    (messages : List ChatMessage) (conversationLog : List ConversationEntry) :
    untrustedToolPass exec tcs messages conversationLog =
      (messages ++ dispatchMessages exec tcs, conversationLog ++ dispatchLogs exec tcs) := by
  induction tcs generalizing messages conversationLog with
  | nil => simp [untrustedToolPass, dispatchMessages, dispatchLogs]
  | cons toolCall rest ih =>
    cases hex : exec toolCall.name toolCall.arguments with
    | ok result =>
      simp only [untrustedToolPass, hex, ih, dispatchMessages, dispatchLogs, dispatchResult,
        List.map_cons, List.flatMap_cons, List.append_assoc, List.cons_append, List.nil_append]
    | error e =>
      simp only [untrustedToolPass, hex, ih, dispatchMessages, dispatchLogs, dispatchResult,
        List.map_cons, List.flatMap_cons, List.append_assoc, List.cons_append, List.nil_append]

theorem untrustedChat_messages (exec : Exec) (script : Script)
    (messages : List ChatMessage) (conversationLog : List ConversationEntry) :
    ∃ ext, (untrustedChat exec script messages conversationLog).2.1 = messages ++ ext ∧
      ext.all isSubagentMsg = true := by
  induction script generalizing messages conversationLog with
  | nil => exact ⟨[], by simp [untrustedChat]⟩
  | cons o rest ih =>
    cases o with
    | none => exact ⟨[], by simp [untrustedChat]⟩
    | some msg =>
      match hcalls : msg.toolCalls with
      | [] => exact ⟨[], by simp [untrustedChat, hcalls]⟩
      | toolCall :: more =>
        obtain ⟨ext, hext, hall⟩ := ih
          (messages ++ [.assistant msg.content (toolCall :: more)] ++
            dispatchMessages exec (toolCall :: more))
          (conversationLog ++ dispatchLogs exec (toolCall :: more))
        refine ⟨[.assistant msg.content (toolCall :: more)] ++
          dispatchMessages exec (toolCall :: more) ++ ext, ?_, ?_⟩
        · simp only [untrustedChat, hcalls, untrustedToolPass_eq]
          rw [hext]
          simp [List.append_assoc]
        · simp only [List.all_append, Bool.and_eq_true]
          refine ⟨⟨rfl, ?_⟩, hall⟩
          simp only [dispatchMessages, List.all_eq_true]
          intro x hx
          obtain ⟨tc, htc, rfl⟩ := List.mem_map.mp hx
          rfl

/-- C1 — Trust isolation invariant of the untrusted sub-agent loop: from any
message-list state, the loop only ever appends assistant/tool messages of
its own turns (so does `untrustedToolPass`, tool messages only), and a
delegated run's message list is exactly the fixed generic system prompt and
the task string followed by such messages.  Since every recursive call's
state is again of this shape, the invariant holds at every point of the
run.  The trusted loop never passes its own message list into the sub-agent
(`runUntrustedSubagent` builds the seed from the prompt alone), and `chat`
consumes only the returned answer string (plus the shared conversation log
and transport script) — see the delegation branch of `processTrustedCalls`,
which discards the returned message list. -/
theorem c1_trust_isolation :
    (∀ (exec : Exec) (script : Script) (messages : List ChatMessage)
       (conversationLog : List ConversationEntry),
       ∃ ext, (untrustedChat exec script messages conversationLog).2.1 = messages ++ ext ∧
         ext.all isSubagentMsg = true) ∧
    (∀ (exec : Exec) (tcs : List ToolCall) (messages : List ChatMessage)
       (conversationLog : List ConversationEntry),
       (untrustedToolPass exec tcs messages conversationLog).1 =
         messages ++ tcs.map (fun tc => ChatMessage.tool (dispatchResult exec tc) tc.id)) ∧
    (∀ (exec : Exec) (script : Script) (prompt : String)
       (conversationLog : List ConversationEntry),
       ∃ ext, (runUntrustedSubagent exec script prompt conversationLog).2.1 =
         [ChatMessage.system untrustedSystemPrompt, ChatMessage.user prompt] ++ ext ∧
         ext.all isSubagentMsg = true) := by
  refine ⟨untrustedChat_messages, ?_, ?_⟩
  · intro exec tcs messages conversationLog
    rw [untrustedToolPass_eq]
    rfl
  · intro exec script prompt conversationLog
    rw [runUntrustedSubagent]
    exact untrustedChat_messages exec script _ _

/-- C7 — Error containment at the tool dispatch boundary: every call either
loop dispatches through the executor yields exactly one appended tool
message whose content is the executor's result, or — when the executor
throws — the caught-error string `Error in <name>: <message>`; an exception
never escapes the dispatch site (the state after the batch is always
defined), the trusted loop appends one such message per non-delegation call
of the batch, and the untrusted loop proceeds to its next model turn with
exactly these messages appended. -/
theorem c7_error_containment :
    (∀ (exec : Exec) (tcs : List ToolCall) (messages : List ChatMessage)
       (conversationLog : List ConversationEntry),
       (untrustedToolPass exec tcs messages conversationLog).1 =
         messages ++ tcs.map (fun tc => ChatMessage.tool
           (match exec tc.name tc.arguments with
            | .ok result => result
            | .error e => "Error in " ++ tc.name ++ ": " ++ e) tc.id)) ∧
    (∀ (exec execU : Exec) (tcs : List ToolCall) (st : BatchState),
       (processTrustedCalls exec execU tcs st).messages =
         st.messages ++ (tcs.filter (fun tc => !(tc.name == "delegate_to_untrusted"))).map
           (fun tc => ChatMessage.tool
             (match exec tc.name tc.arguments with
              | .ok result => result
              | .error e => "Error in " ++ tc.name ++ ": " ++ e) tc.id)) ∧
    (∀ (exec : Exec) (content : Option String) (toolCall : ToolCall) (more : List ToolCall)
       (rest : Script) (messages : List ChatMessage)
       (conversationLog : List ConversationEntry),
       untrustedChat exec (some ⟨content, toolCall :: more⟩ :: rest) messages conversationLog =
         untrustedChat exec rest
           (messages ++ [ChatMessage.assistant content (toolCall :: more)] ++
             dispatchMessages exec (toolCall :: more))
           (conversationLog ++ dispatchLogs exec (toolCall :: more))) := by
  refine ⟨?_, ?_, ?_⟩
  · intro exec tcs messages conversationLog
    rw [untrustedToolPass_eq]
    rfl
  · intro exec execU tcs st
    rw [processTrustedCalls_messages]
    rfl
  · intro exec content toolCall more rest messages conversationLog
    simp only [untrustedChat, untrustedToolPass_eq]

theorem processTrustedCalls_append (exec execU : Exec) (a b : List ToolCall)
    (st : BatchState) :
    processTrustedCalls exec execU (a ++ b) st =
      processTrustedCalls exec execU b (processTrustedCalls exec execU a st) := by
  induction a generalizing st with
  | nil => rfl
  | cons toolCall rest ih =>
    simp only [List.cons_append, processTrustedCalls]
    split
    · exact ih _
    · split
      · exact ih _
      · exact ih _

/-- A batch with no delegation call is pure dispatch: one tool message and
one `tool_input`/`tool_output` log pair per call, everything else
untouched. -/
theorem processTrustedCalls_no_delegate (exec execU : Exec) (tcs : List ToolCall)
    (st : BatchState) (hnd : ∀ tc ∈ tcs, tc.name ≠ "delegate_to_untrusted") :
    processTrustedCalls exec execU tcs st =
      ⟨st.messages ++ dispatchMessages exec tcs,
       st.toolsUsed ++ tcs.map ToolCall.name,
       st.toolInputs ++ tcs.map (fun tc => (tc.name, parsedArgsOf tc)),
       st.conversationLog ++ trustedCallLogs exec tcs,
       st.script, st.delegateResult⟩ := by
  induction tcs generalizing st with
  | nil =>
    simp [processTrustedCalls, dispatchMessages, dispatchLogs, trustedCallLogs]
  | cons toolCall rest ih =>
    have hname : ¬ toolCall.name = "delegate_to_untrusted" := hnd toolCall (by simp)
    cases hex : exec toolCall.name toolCall.arguments with
    | ok result =>
      simp only [processTrustedCalls, if_neg hname, hex]
      rw [ih _ (fun tc htc => hnd tc (List.mem_cons_of_mem toolCall htc))]
      simp only [dispatchMessages, trustedCallLogs, List.map_cons, List.flatMap_cons,
        dispatchResult, hex, parsedArgsOf, canonContent, List.append_assoc, List.cons_append,
        List.nil_append]
    | error e =>
      simp only [processTrustedCalls, if_neg hname, hex]
      rw [ih _ (fun tc htc => hnd tc (List.mem_cons_of_mem toolCall htc))]
      simp only [dispatchMessages, trustedCallLogs, List.map_cons, List.flatMap_cons,
        dispatchResult, hex, parsedArgsOf, canonContent, List.append_assoc, List.cons_append,
        List.nil_append]

/-- The delegation step: log the canonicalized `tool_input`, run the
sub-agent on the call's `prompt` argument with the shared log and script,
record its answer as the (overwriting) delegate result, and append no tool
message. -/
theorem processTrustedCalls_delegate (exec execU : Exec) (d : ToolCall)
    (rest : List ToolCall) (st : BatchState)
    (hd : d.name = "delegate_to_untrusted") :
    processTrustedCalls exec execU (d :: rest) st =
      processTrustedCalls exec execU rest
        ⟨st.messages,
         st.toolsUsed ++ [d.name],
         st.toolInputs ++ [(d.name, parsedArgsOf d)],
         (runUntrustedSubagent execU st.script (promptArg (parsedArgsOf d))
           (st.conversationLog ++
             [ConversationEntry.tool_input d.name (canonContent d.arguments)])).2.2.1,
         (runUntrustedSubagent execU st.script (promptArg (parsedArgsOf d))
           (st.conversationLog ++
             [ConversationEntry.tool_input d.name (canonContent d.arguments)])).2.2.2,
         some (runUntrustedSubagent execU st.script (promptArg (parsedArgsOf d))
           (st.conversationLog ++
             [ConversationEntry.tool_input d.name (canonContent d.arguments)])).1⟩ := by
  simp only [processTrustedCalls, if_pos hd, parsedArgsOf, canonContent]

theorem promptArg_obj (fields : List (String × Json)) (p : String)
    (hprompt : lookupLast "prompt" fields = some (Json.str p)) :
    promptArg (Json.obj fields) = p := by
  simp [promptArg, hprompt]

/-- One trusted model turn that carries tool calls: record the intermediate
response text (when truthy), append the assistant message, process the
batch, and either return the delegated answer or recurse. -/
theorem chat_batch (exec execU : Exec) (c : Option String) (toolCall : ToolCall)
    (more : List ToolCall) (rest : Script) (messages : List ChatMessage)
    (toolsUsed : List String) (toolInputs : List (String × Json))
    (conversationLog : List ConversationEntry) :
    chat exec execU (some ⟨c, toolCall :: more⟩ :: rest) messages toolsUsed toolInputs
        conversationLog =
      (let st := processTrustedCalls exec execU (toolCall :: more)
        ⟨messages ++ [.assistant c (toolCall :: more)], toolsUsed, toolInputs,
         (match c with
          | some s =>
            if s = "" then conversationLog
            else conversationLog ++ [ConversationEntry.response s]
          | none => conversationLog), rest, none⟩
       match st.delegateResult with
       | some r => some (r, st)
       | none =>
         chat exec execU st.script st.messages st.toolsUsed st.toolInputs
           st.conversationLog) := by
  rw [chat]

/-- C3 — Delegation semantics of the trusted loop, for a batch containing
exactly one `delegate_to_untrusted` call: the sub-agent runs on the call's
`prompt` argument (instead of an executor dispatch — no tool message and no
`tool_output` entry exist for the call), the calls before and after it are
still executed through the executor in order, the sub-agent's return text
becomes the turn's final answer, and the loop terminates after the batch
without issuing another model call — the transport script stands exactly
where the sub-agent run left it. -/
theorem c3_delegation (exec execU : Exec) (c : Option String) (pre post : List ToolCall)
    (d : ToolCall) (rest : Script) (messages : List ChatMessage) (toolsUsed : List String)
    (toolInputs : List (String × Json)) (conversationLog : List ConversationEntry)
    (fields : List (String × Json)) (p : String)
    (hd : d.name = "delegate_to_untrusted")
    (hpre : ∀ tc ∈ pre, tc.name ≠ "delegate_to_untrusted")
    (hpost : ∀ tc ∈ post, tc.name ≠ "delegate_to_untrusted")
    (hargs : jsonParse d.arguments = some (Json.obj fields))
    (hprompt : lookupLast "prompt" fields = some (Json.str p)) :
    let respLog :=
      (match c with
       | some s =>
         if s = "" then conversationLog
         else conversationLog ++ [ConversationEntry.response s]
       | none => conversationLog)
    let sub := runUntrustedSubagent execU rest p
      (respLog ++ (trustedCallLogs exec pre ++
        [ConversationEntry.tool_input d.name (canonContent d.arguments)]))
    ∃ st : BatchState,
      chat exec execU (some ⟨c, pre ++ d :: post⟩ :: rest) messages toolsUsed toolInputs
          conversationLog = some (sub.1, st) ∧
      st.delegateResult = some sub.1 ∧
      st.messages = messages ++ [ChatMessage.assistant c (pre ++ d :: post)] ++
        dispatchMessages exec pre ++ dispatchMessages exec post ∧
      st.conversationLog = sub.2.2.1 ++ trustedCallLogs exec post ∧
      st.script = sub.2.2.2 := by
  intro respLog sub
  obtain ⟨t, ts, hts⟩ : ∃ t ts, pre ++ d :: post = t :: ts := by
    cases pre with
    | nil => exact ⟨d, post, rfl⟩
    | cons a b => exact ⟨a, b ++ d :: post, by simp⟩
  rw [hts, chat_batch, ← hts]
  have hparsed : parsedArgsOf d = Json.obj fields := by
    rw [parsedArgsOf, hargs]
    rfl
  have hpromptd : promptArg (parsedArgsOf d) = p := by
    rw [hparsed]
    exact promptArg_obj fields p hprompt
  rw [processTrustedCalls_append,
    processTrustedCalls_no_delegate exec execU pre _ hpre,
    processTrustedCalls_delegate exec execU d post _ hd,
    processTrustedCalls_no_delegate exec execU post _ hpost]
  simp only [hpromptd, List.append_assoc]
  refine ⟨⟨messages ++ ([ChatMessage.assistant c (pre ++ d :: post)] ++
      (dispatchMessages exec pre ++ dispatchMessages exec post)),
    toolsUsed ++ (List.map ToolCall.name pre ++ ([d.name] ++ List.map ToolCall.name post)),
    toolInputs ++ (List.map (fun tc => (tc.name, parsedArgsOf tc)) pre ++
      ([(d.name, parsedArgsOf d)] ++ List.map (fun tc => (tc.name, parsedArgsOf tc)) post)),
    sub.2.2.1 ++ trustedCallLogs exec post,
    sub.2.2.2,
    some sub.1⟩, ?_, ?_, ?_, ?_, ?_⟩
  · rfl
  · rfl
  · simp [List.append_assoc]
  · rfl
  · rfl


/-- Concrete C3 run: a three-call batch `read_note; delegate_to_untrusted
\x7b"prompt": "q"\x7d; list_notes` with a one-message sub-agent script. -/
theorem c3_delegation_witness :
    (let respLog :=
      (match (some "thinking" : Option String) with
       | some s =>
         if s = "" then ([] : List ConversationEntry)
         else [] ++ [ConversationEntry.response s]
       | none => [])
    let sub := runUntrustedSubagent (fun n _ => Except.ok ("sub " ++ n))
      [some ⟨some "ans", []⟩] "q"
      (respLog ++ (trustedCallLogs (fun n _ => Except.ok ("ran " ++ n))
          [⟨"c1", "read_note", "nope"⟩] ++
        [ConversationEntry.tool_input "delegate_to_untrusted"
          (canonContent "\x7b\"prompt\": \"q\"\x7d")]))
    ∃ st : BatchState,
      chat (fun n _ => Except.ok ("ran " ++ n)) (fun n _ => Except.ok ("sub " ++ n))
          (some ⟨some "thinking",
            [⟨"c1", "read_note", "nope"⟩] ++
              (⟨"c2", "delegate_to_untrusted", "\x7b\"prompt\": \"q\"\x7d"⟩ : ToolCall) ::
                [⟨"c3", "list_notes", "also"⟩]⟩ :: [some ⟨some "ans", []⟩])
          [] [] [] [] = some (sub.1, st) ∧
      st.delegateResult = some sub.1 ∧
      st.messages = [] ++ [ChatMessage.assistant (some "thinking")
          ([⟨"c1", "read_note", "nope"⟩] ++
            (⟨"c2", "delegate_to_untrusted", "\x7b\"prompt\": \"q\"\x7d"⟩ : ToolCall) ::
              [⟨"c3", "list_notes", "also"⟩])] ++
        dispatchMessages (fun n _ => Except.ok ("ran " ++ n))
          [⟨"c1", "read_note", "nope"⟩] ++
        dispatchMessages (fun n _ => Except.ok ("ran " ++ n))
          [⟨"c3", "list_notes", "also"⟩] ∧
      st.conversationLog = sub.2.2.1 ++
        trustedCallLogs (fun n _ => Except.ok ("ran " ++ n))
          [⟨"c3", "list_notes", "also"⟩] ∧
      st.script = sub.2.2.2) :=
  c3_delegation (fun n _ => Except.ok ("ran " ++ n))
    (fun n _ => Except.ok ("sub " ++ n)) (some "thinking")
    [⟨"c1", "read_note", "nope"⟩] [⟨"c3", "list_notes", "also"⟩]
    ⟨"c2", "delegate_to_untrusted", "\x7b\"prompt\": \"q\"\x7d"⟩
    [some ⟨some "ans", []⟩] [] [] [] []
    [("prompt", Json.str "q")] "q"
    rfl (by decide) (by decide) rfl rfl

/-- C10 — Multiple delegations in one trusted batch, for a batch
`a ++ d1 :: (b ++ d2 :: c)` with two `delegate_to_untrusted` calls: the first
sub-agent runs on `d1`'s prompt, the second runs on `d2`'s prompt *after*
it — on the transport script exactly where the first run stopped and on a
conversation log extending the first run's log (batch order); the turn's
final answer is the *second* (last) delegation's return text, the first
result having been overwritten in `delegateResult` and discarded; and no
tool message is appended for either delegation call — the trusted message
list gains exactly the assistant turn plus the dispatched results of the
non-delegation calls `a`, `b`, `c`. -/
theorem c10_last_delegation_wins (exec execU : Exec) (c0 : Option String)
    (a b c : List ToolCall) (d1 d2 : ToolCall) (rest : Script)
    (messages : List ChatMessage) (toolsUsed : List String)
    (toolInputs : List (String × Json)) (conversationLog : List ConversationEntry)
    (fields1 fields2 : List (String × Json)) (p1 p2 : String)
    (hd1 : d1.name = "delegate_to_untrusted")
    (hd2 : d2.name = "delegate_to_untrusted")
    (ha : ∀ tc ∈ a, tc.name ≠ "delegate_to_untrusted")
    (hb : ∀ tc ∈ b, tc.name ≠ "delegate_to_untrusted")
    (hc : ∀ tc ∈ c, tc.name ≠ "delegate_to_untrusted")
    (hargs1 : jsonParse d1.arguments = some (Json.obj fields1))
    (hprompt1 : lookupLast "prompt" fields1 = some (Json.str p1))
    (hargs2 : jsonParse d2.arguments = some (Json.obj fields2))
    (hprompt2 : lookupLast "prompt" fields2 = some (Json.str p2)) :
    let respLog :=
      (match c0 with
       | some s =>
         if s = "" then conversationLog
         else conversationLog ++ [ConversationEntry.response s]
       | none => conversationLog)
    let sub1 := runUntrustedSubagent execU rest p1
      (respLog ++ (trustedCallLogs exec a ++
        [ConversationEntry.tool_input d1.name (canonContent d1.arguments)]))
    let sub2 := runUntrustedSubagent execU sub1.2.2.2 p2
      (sub1.2.2.1 ++ (trustedCallLogs exec b ++
        [ConversationEntry.tool_input d2.name (canonContent d2.arguments)]))
    ∃ st : BatchState,
      chat exec execU (some ⟨c0, a ++ d1 :: (b ++ d2 :: c)⟩ :: rest) messages toolsUsed
          toolInputs conversationLog = some (sub2.1, st) ∧
      st.delegateResult = some sub2.1 ∧
      st.messages = messages ++ [ChatMessage.assistant c0 (a ++ d1 :: (b ++ d2 :: c))] ++
        dispatchMessages exec a ++ dispatchMessages exec b ++ dispatchMessages exec c ∧
      st.conversationLog = sub2.2.2.1 ++ trustedCallLogs exec c ∧
      st.script = sub2.2.2.2 := by
  intro respLog sub1 sub2
  obtain ⟨t, ts, hts⟩ : ∃ t ts, a ++ d1 :: (b ++ d2 :: c) = t :: ts := by
    cases a with
    | nil => exact ⟨d1, b ++ d2 :: c, rfl⟩
    | cons x y => exact ⟨x, y ++ d1 :: b ++ d2 :: c, by simp⟩
  rw [hts, chat_batch, ← hts]
  have hparsed1 : parsedArgsOf d1 = Json.obj fields1 := by
    rw [parsedArgsOf, hargs1]
    rfl
  have hpromptd1 : promptArg (parsedArgsOf d1) = p1 := by
    rw [hparsed1]
    exact promptArg_obj fields1 p1 hprompt1
  have hparsed2 : parsedArgsOf d2 = Json.obj fields2 := by
    rw [parsedArgsOf, hargs2]
    rfl
  have hpromptd2 : promptArg (parsedArgsOf d2) = p2 := by
    rw [hparsed2]
    exact promptArg_obj fields2 p2 hprompt2
  rw [processTrustedCalls_append,
    processTrustedCalls_no_delegate exec execU a _ ha,
    processTrustedCalls_delegate exec execU d1 _ _ hd1,
    processTrustedCalls_append,
    processTrustedCalls_no_delegate exec execU b _ hb,
    processTrustedCalls_delegate exec execU d2 _ _ hd2,
    processTrustedCalls_no_delegate exec execU c _ hc]
  simp only [hpromptd1, hpromptd2, List.append_assoc]
  refine ⟨⟨messages ++ ([ChatMessage.assistant c0 (a ++ d1 :: (b ++ d2 :: c))] ++
      (dispatchMessages exec a ++ (dispatchMessages exec b ++ dispatchMessages exec c))),
    toolsUsed ++ (List.map ToolCall.name a ++ ([d1.name] ++
      (List.map ToolCall.name b ++ ([d2.name] ++ List.map ToolCall.name c)))),
    toolInputs ++ (List.map (fun tc => (tc.name, parsedArgsOf tc)) a ++
      ([(d1.name, parsedArgsOf d1)] ++
        (List.map (fun tc => (tc.name, parsedArgsOf tc)) b ++
          ([(d2.name, parsedArgsOf d2)] ++
            List.map (fun tc => (tc.name, parsedArgsOf tc)) c)))),
    sub2.2.2.1 ++ trustedCallLogs exec c,
    sub2.2.2.2,
    some sub2.1⟩, ?_, ?_, ?_, ?_, ?_⟩
  · rfl
  · rfl
  · simp [List.append_assoc]
  · rfl
  · rfl

/-- Concrete C10 run: a batch `delegate \x7b"prompt": "one"\x7d; read_note;
delegate \x7b"prompt": "two"\x7d` against a two-message transport script —
the first sub-agent consumes the first scripted message, the second runs on
the leftover script, and the answer is the second run's text. -/
theorem c10_last_delegation_wins_witness :
    (let respLog :=
      (match (some "plan" : Option String) with
       | some s =>
         if s = "" then ([] : List ConversationEntry)
         else [] ++ [ConversationEntry.response s]
       | none => [])
    let sub1 := runUntrustedSubagent (fun n _ => Except.ok ("sub " ++ n))
      [some ⟨some "first", []⟩, some ⟨some "second", []⟩] "one"
      (respLog ++ (trustedCallLogs (fun n _ => Except.ok ("ran " ++ n)) [] ++
        [ConversationEntry.tool_input "delegate_to_untrusted"
          (canonContent "\x7b\"prompt\": \"one\"\x7d")]))
    let sub2 := runUntrustedSubagent (fun n _ => Except.ok ("sub " ++ n)) sub1.2.2.2 "two"
      (sub1.2.2.1 ++ (trustedCallLogs (fun n _ => Except.ok ("ran " ++ n))
          [⟨"c2", "read_note", "x"⟩] ++
        [ConversationEntry.tool_input "delegate_to_untrusted"
          (canonContent "\x7b\"prompt\": \"two\"\x7d")]))
    ∃ st : BatchState,
      chat (fun n _ => Except.ok ("ran " ++ n)) (fun n _ => Except.ok ("sub " ++ n))
          (some ⟨some "plan",
            [] ++ (⟨"c1", "delegate_to_untrusted", "\x7b\"prompt\": \"one\"\x7d"⟩ : ToolCall) ::
              ([⟨"c2", "read_note", "x"⟩] ++
                (⟨"c3", "delegate_to_untrusted", "\x7b\"prompt\": \"two\"\x7d"⟩ : ToolCall) ::
                  [])⟩ :: [some ⟨some "first", []⟩, some ⟨some "second", []⟩])
          [] [] [] [] = some (sub2.1, st) ∧
      st.delegateResult = some sub2.1 ∧
      st.messages = [] ++ [ChatMessage.assistant (some "plan")
          ([] ++ (⟨"c1", "delegate_to_untrusted", "\x7b\"prompt\": \"one\"\x7d"⟩ : ToolCall) ::
            ([⟨"c2", "read_note", "x"⟩] ++
              (⟨"c3", "delegate_to_untrusted", "\x7b\"prompt\": \"two\"\x7d"⟩ : ToolCall) ::
                []))] ++
        dispatchMessages (fun n _ => Except.ok ("ran " ++ n)) [] ++
        dispatchMessages (fun n _ => Except.ok ("ran " ++ n)) [⟨"c2", "read_note", "x"⟩] ++
        dispatchMessages (fun n _ => Except.ok ("ran " ++ n)) [] ∧
      st.conversationLog = sub2.2.2.1 ++
        trustedCallLogs (fun n _ => Except.ok ("ran " ++ n)) [] ∧
      st.script = sub2.2.2.2) :=
  c10_last_delegation_wins (fun n _ => Except.ok ("ran " ++ n))
    (fun n _ => Except.ok ("sub " ++ n)) (some "plan")
    [] [⟨"c2", "read_note", "x"⟩] []
    ⟨"c1", "delegate_to_untrusted", "\x7b\"prompt\": \"one\"\x7d"⟩
    ⟨"c3", "delegate_to_untrusted", "\x7b\"prompt\": \"two\"\x7d"⟩
    [some ⟨some "first", []⟩, some ⟨some "second", []⟩] [] [] [] []
    [("prompt", Json.str "one")] [("prompt", Json.str "two")] "one" "two"
    rfl rfl (by decide) (by decide) (by decide) rfl rfl rfl rfl

/-- C8 counterexample — the untrusted loop logs the *raw* argument string
even when it parses as JSON: for the call `read_note \x7b"a": 1\x7d` the
recorded `tool_input` content is the raw text, not the canonicalized
(pretty-printed) form, although the two differ. -/
theorem c8_counterexample :
    (jsonParse "\x7b\"a\": 1\x7d").isSome = true ∧
    canonContent "\x7b\"a\": 1\x7d" ≠ "\x7b\"a\": 1\x7d" ∧
    (untrustedChat (fun _ _ => Except.ok "r")
        [some ⟨some "go", [⟨"t1", "read_note", "\x7b\"a\": 1\x7d"⟩]⟩,
         some ⟨some "done", []⟩] [] []).2.2.1 =
      [ConversationEntry.tool_input "read_note" "\x7b\"a\": 1\x7d",
       ConversationEntry.tool_output "read_note" "r" 0] := by
  refine ⟨by decide, by decide, ?_⟩
  simp only [untrustedChat, untrustedToolPass_eq]
  decide

/-- C8 amended — what each loop actually records and forwards: the untrusted
loop logs the raw argument string as the `tool_input` content; the trusted
loop (non-delegation calls) logs `canonContent`, which is the pretty-printed
form of the parsed JSON when parsing succeeds, and the pretty-printed JSON
*string literal* wrapping the raw text (quoted, not the raw text itself)
when parsing fails; in every case the executor receives the raw argument
string. -/
theorem c8_logged_tool_inputs :
    (∀ (exec : Exec) (tcs : List ToolCall) (messages : List ChatMessage)
       (conversationLog : List ConversationEntry),
       (untrustedToolPass exec tcs messages conversationLog).2 =
         conversationLog ++ tcs.flatMap (fun tc =>
           [ConversationEntry.tool_input tc.name tc.arguments,
            ConversationEntry.tool_output tc.name
              (match exec tc.name tc.arguments with
               | .ok result => result
               | .error e => "Error in " ++ tc.name ++ ": " ++ e) 0])) ∧
    (∀ (exec execU : Exec) (tcs : List ToolCall) (st : BatchState),
       (∀ tc ∈ tcs, tc.name ≠ "delegate_to_untrusted") →
       (processTrustedCalls exec execU tcs st).conversationLog =
         st.conversationLog ++ tcs.flatMap (fun tc =>
           [ConversationEntry.tool_input tc.name (canonContent tc.arguments),
            ConversationEntry.tool_output tc.name
              (match exec tc.name tc.arguments with
               | .ok result => result
               | .error e => "Error in " ++ tc.name ++ ": " ++ e) 0])) ∧
    (∀ (raw : String) (v : Json), jsonParse raw = some v →
       canonContent raw = jsonStringify2 v) ∧
    (∀ raw : String, jsonParse raw = none →
       canonContent raw = jsonStringify2 (Json.str raw)) := by
  refine ⟨?_, ?_, ?_, ?_⟩
  · intro exec tcs messages conversationLog
    rw [untrustedToolPass_eq]
    rfl
  · intro exec execU tcs st hnd
    rw [processTrustedCalls_no_delegate exec execU tcs st hnd]
    rfl
  · intro raw v h
    rw [canonContent, h]
    rfl
  · intro raw h
    rw [canonContent, h]
    rfl

/-- Concrete C8 run of the amended statement: the trusted loop logs the
quoted form of the unparsable argument `notjson`, decidedly not the raw
text. -/
theorem c8_logged_tool_inputs_witness :
    (processTrustedCalls (fun _ _ => Except.ok "r") (fun _ _ => Except.ok "s")
        [⟨"t1", "read_note", "notjson"⟩]
        ⟨[], [], [], [], [], none⟩).conversationLog =
      [] ++ [ConversationEntry.tool_input "read_note" (canonContent "notjson"),
        ConversationEntry.tool_output "read_note" "r" 0] ∧
    canonContent "notjson" = jsonStringify2 (Json.str "notjson") := by
  refine ⟨?_, c8_logged_tool_inputs.2.2.2 "notjson" rfl⟩
  have h := c8_logged_tool_inputs.2.1 (fun _ _ => Except.ok "r")
    (fun _ _ => Except.ok "s") [⟨"t1", "read_note", "notjson"⟩]
    ⟨[], [], [], [], [], none⟩ (by decide)
  simpa using h

end Cli

/-! ### The history store (the sqlite module of src/unnamed/part_014):
`openDb`, `writeConversationLog`, `loadRecentHistory` over the
`conversations` table.  Rows and the `AUTOINCREMENT` cursor are explicit:
a fresh table starts at id 1 and every insert takes the cursor and bumps
it.  `ORDER BY id DESC LIMIT 2` is insertion sort by descending id
followed by `take 2`. -/

namespace Db

structure DbRow where
  id : Nat
  source : String
  prompt : String
  response : String
  content : String
deriving DecidableEq, Repr

structure Database where
  rows : List DbRow
  nextId : Nat
deriving DecidableEq, Repr

structure Exchange where
  user : String
  assistant : String
deriving DecidableEq, Repr

def openDb : Database := ⟨[], 1⟩

def isPrompt : ConversationEntry → Bool
  | .prompt _ => true
  | _ => false

def isResponse : ConversationEntry → Bool
  | .response _ => true
  | _ => false

def contentOf : ConversationEntry → String
  | .prompt c => c
  | .response c => c
  | .tool_input _ c => c
  | .tool_output _ c _ => c

/-- `writeConversationLog(db, entries, source?)`: first `prompt` content,
last `response` content, formatted log; returns `lastInsertRowid`. -/
def writeConversationLog (db : Database) (entries : List ConversationEntry)
    (source : Option String) : Nat × Database :=
  let prompt := ((entries.find? isPrompt).map contentOf).getD ""
  let response := (((entries.filter isResponse).getLast?).map contentOf).getD ""
  let content := formatConversationLog entries
  (db.nextId,
   ⟨db.rows ++ [⟨db.nextId, source.getD "cli", prompt, response, content⟩],
    db.nextId + 1⟩)

def insertDescById (r : DbRow) : List DbRow → List DbRow
  | [] => [r]
  | x :: xs => if x.id ≤ r.id then r :: x :: xs else x :: insertDescById r xs

def sortDescById (rows : List DbRow) : List DbRow :=
  rows.foldr insertDescById []

/-- `loadRecentHistory(db, source?)`: the `SELECT … WHERE source = ?
ORDER BY id DESC LIMIT 2` result, reversed and mapped to exchanges. -/
def loadRecentHistory (db : Database) (source : Option String) : List Exchange :=
  let rows := (sortDescById (db.rows.filter
    (fun r => r.source == source.getD "cli"))).take 2
  rows.reverse.map (fun r => ⟨r.prompt, r.response⟩)

/-- A sequence of completed turns written in order. -/
def writeAll (db : Database) : List (List ConversationEntry × Option String) → Database
  | [] => db
  | w :: rest => writeAll (writeConversationLog db w.1 w.2).2 rest

/-- Spec-side view — the exchange a conversation contributes: its first
`prompt` content and last `response` content. -/
def exchangeOf (entries : List ConversationEntry) : Exchange :=
  ⟨((entries.find? isPrompt).map contentOf).getD "",
   (((entries.filter isResponse).getLast?).map contentOf).getD ""⟩

/-- Spec-side view: the exchanges of the writes with a given source, in
write order. -/
def exchangesFor (source : Option String)
    (ws : List (List ConversationEntry × Option String)) : List Exchange :=
  (ws.filter (fun w => w.2.getD "cli" == source.getD "cli")).map
    (fun w => exchangeOf w.1)

/-- Spec-side view: the last `k` elements, oldest first. -/
def lastK (k : Nat) (l : List Exchange) : List Exchange :=
  l.drop (l.length - k)

/-- The rows a write sequence mints starting at cursor `n`. -/
def mintedRows (n : Nat) :
    List (List ConversationEntry × Option String) → List DbRow
  | [] => []
  | w :: rest =>
    ⟨n, w.2.getD "cli",
     ((w.1.find? isPrompt).map contentOf).getD "",
     (((w.1.filter isResponse).getLast?).map contentOf).getD "",
     formatConversationLog w.1⟩ :: mintedRows (n + 1) rest

theorem writeAll_rows (ws : List (List ConversationEntry × Option String))
    (db : Database) :
    (writeAll db ws).rows = db.rows ++ mintedRows db.nextId ws := by
  induction ws generalizing db with
  | nil => simp [writeAll, mintedRows]
  | cons w rest ih =>
    simp only [writeAll, mintedRows]
    rw [ih]
    simp [writeConversationLog]

theorem writeAll_nextId (ws : List (List ConversationEntry × Option String))
    (db : Database) :
    (writeAll db ws).nextId = db.nextId + ws.length := by
  induction ws generalizing db with
  | nil => simp [writeAll]
  | cons w rest ih =>
    simp only [writeAll, List.length_cons]
    rw [ih]
    simp [writeConversationLog]
    omega

theorem mintedRows_id_ge (ws : List (List ConversationEntry × Option String))
    (n : Nat) : ∀ r ∈ mintedRows n ws, n ≤ r.id := by
  induction ws generalizing n with
  | nil => simp [mintedRows]
  | cons w rest ih =>
    simp only [mintedRows, List.mem_cons]
    rintro r (rfl | hr)
    · exact le_refl n
    · exact le_trans (Nat.le_succ n) (ih (n + 1) r hr)

theorem mintedRows_id_lt (ws : List (List ConversationEntry × Option String))
    (n : Nat) : ∀ r ∈ mintedRows n ws, r.id < n + ws.length := by
  induction ws generalizing n with
  | nil => simp [mintedRows]
  | cons w rest ih =>
    simp only [mintedRows, List.mem_cons, List.length_cons]
    rintro r (rfl | hr)
    · show n < n + (rest.length + 1)
      omega
    · have := ih (n + 1) r hr
      omega

theorem mintedRows_pairwise (ws : List (List ConversationEntry × Option String))
    (n : Nat) : (mintedRows n ws).Pairwise (fun a b => a.id < b.id) := by
  induction ws generalizing n with
  | nil => simp [mintedRows]
  | cons w rest ih =>
    simp only [mintedRows, List.pairwise_cons]
    refine ⟨fun r hr => ?_, ih (n + 1)⟩
    exact lt_of_lt_of_le (Nat.lt_succ_self n) (mintedRows_id_ge rest (n + 1) r hr)

theorem insertDescById_min (r : DbRow) (m : List DbRow)
    (h : ∀ y ∈ m, r.id < y.id) : insertDescById r m = m ++ [r] := by
  induction m with
  | nil => rfl
  | cons x xs ih =>
    have hx : r.id < x.id := h x (by simp)
    simp only [insertDescById, if_neg (by omega : ¬ x.id ≤ r.id)]
    rw [ih (fun y hy => h y (by simp [hy]))]
    rfl

theorem sortDescById_of_pairwise (l : List DbRow)
    (h : l.Pairwise (fun a b => a.id < b.id)) : sortDescById l = l.reverse := by
  induction l with
  | nil => rfl
  | cons x xs ih =>
    rw [List.pairwise_cons] at h
    show insertDescById x (List.foldr insertDescById [] xs) = (x :: xs).reverse
    rw [show List.foldr insertDescById [] xs = sortDescById xs from rfl, ih h.2,
      insertDescById_min x xs.reverse (fun y hy => h.1 y (List.mem_reverse.mp hy))]
    simp

theorem mintedRows_filter_map (ws : List (List ConversationEntry × Option String))
    (n : Nat) (s : String) :
    ((mintedRows n ws).filter (fun r => r.source == s)).map
        (fun r => (⟨r.prompt, r.response⟩ : Exchange)) =
      (ws.filter (fun w => w.2.getD "cli" == s)).map (fun w => exchangeOf w.1) := by
  induction ws generalizing n with
  | nil => rfl
  | cons w rest ih =>
    cases hs : (w.2.getD "cli" == s) with
    | true =>
      simp only [mintedRows, List.filter_cons, hs]
      simp only [if_true]
      simp [ih (n + 1), exchangeOf]
    | false =>
      simp only [mintedRows, List.filter_cons, hs]
      simp [ih (n + 1)]

/-- C9 — History store semantics: from a fresh store, after any sequence of
writes, `loadRecentHistory` returns the exchanges of the last two
conversations written with the queried source, oldest first, each derived
from the conversation's first `prompt` and last `response`; a write
appends exactly one row with the current cursor as id (never modifying or
deleting existing rows), returns that id, and the id of every previously
written row is strictly smaller than the id the next write returns. -/
theorem c9_history_store (src : Option String)
    (ws : List (List ConversationEntry × Option String))
    (db : Database) (entries : List ConversationEntry) (s2 : Option String) :
    loadRecentHistory (writeAll openDb ws) src = lastK 2 (exchangesFor src ws) ∧
    (∃ r : DbRow, (writeConversationLog db entries s2).2.rows = db.rows ++ [r] ∧
      r.id = db.nextId) ∧
    (writeConversationLog db entries s2).1 = db.nextId ∧
    (∀ r ∈ (writeAll openDb ws).rows,
      r.id < (writeConversationLog (writeAll openDb ws) entries s2).1) := by
  refine ⟨?_, ⟨_, rfl, rfl⟩, rfl, ?_⟩
  · rw [loadRecentHistory, writeAll_rows]
    show ((sortDescById ((([] : List DbRow) ++ mintedRows openDb.nextId ws).filter
      (fun r => r.source == src.getD "cli"))).take 2).reverse.map
        (fun r => (⟨r.prompt, r.response⟩ : Exchange)) = _
    rw [List.nil_append]
    have hpw : ((mintedRows openDb.nextId ws).filter
        (fun r => r.source == src.getD "cli")).Pairwise (fun a b => a.id < b.id) :=
      (mintedRows_pairwise ws openDb.nextId).filter _
    rw [sortDescById_of_pairwise _ hpw, ← List.rtake_eq_reverse_take_reverse,
      List.rtake]
    rw [List.map_drop, mintedRows_filter_map ws openDb.nextId (src.getD "cli")]
    rw [lastK, exchangesFor]
    congr 1
    have hlen := congrArg List.length
      (mintedRows_filter_map ws openDb.nextId (src.getD "cli"))
    simp only [List.length_map] at hlen ⊢
    omega
  · intro r hr
    rw [writeAll_rows] at hr
    have hr' : r ∈ mintedRows openDb.nextId ws := by simpa [openDb] using hr
    show r.id < (writeAll openDb ws).nextId
    rw [writeAll_nextId]
    exact mintedRows_id_lt ws openDb.nextId r hr' 

/-- Concrete C9 run: four writes, one of them under a different source —
the query returns the exchanges of the third and fourth conversations,
oldest first. -/
theorem c9_history_store_witness :
    loadRecentHistory (writeAll openDb
      [([ConversationEntry.prompt "p1", ConversationEntry.response "r1"], none),
       ([ConversationEntry.prompt "p2", ConversationEntry.response "r2"], some "discord"),
       ([ConversationEntry.prompt "p3", ConversationEntry.response "r3"], none),
       ([ConversationEntry.prompt "p4", ConversationEntry.response "r4"], none)]) none =
      [⟨"p3", "r3"⟩, ⟨"p4", "r4"⟩] := by
  have h := (c9_history_store none
    [([ConversationEntry.prompt "p1", ConversationEntry.response "r1"], none),
     ([ConversationEntry.prompt "p2", ConversationEntry.response "r2"], some "discord"),
     ([ConversationEntry.prompt "p3", ConversationEntry.response "r3"], none),
     ([ConversationEntry.prompt "p4", ConversationEntry.response "r4"], none)]
    openDb [] none).1
  rw [h]
  decide

end Db

end Troy
